import Mathlib

/-!
# SparseMatrix (mathicgb): a shallow embedding of `src/mathicgb/SparseMatrix.cpp`

The matrix keeps two index-parallel buffers (column indices and scalars) and a
list of rows, each row being four addresses into the two buffers.  Addresses
are integers counted in elements of the buffer they point into, so that the
pointer rebasing of `reserveEntries` is part of the model.

Machine types: `Scalar` is `uint16`, `ColIndex` is `uint32`, `RowIndex` and
`size_t` are 64-bit; dense rows hold `uint64` values.  Values are natural
numbers, with an explicit `% 2^w` wherever the source narrows or can wrap.
-/

set_option linter.unusedVariables false

namespace SparseMatrix

/-- Number of values of the 16-bit `Scalar` type. -/
def scalarSize : Nat := 65536

/-- Number of values of the 32-bit `ColIndex` type. -/
def colIndexSize : Nat := 4294967296

/-- Number of values of the `uint32` type used for intermediate products. -/
def uint32Size : Nat := 4294967296

/-- The heap as seen by `operator new[]`: call number `k` returns the address
`fresh k`; `used` counts the calls made so far.  Every allocation behaviour is
some such sequence of addresses. -/
structure Heap where
  fresh : Nat → Int
  used : Nat

/-- One call of `operator new[]`: the address returned and the heap afterwards. -/
def Heap.alloc (h : Heap) : Int × Heap :=
  (h.fresh h.used, { h with used := h.used + 1 })

/-- Modelled from the spec: the growable buffer type `RawVector` (its header is
not among the sources).  `mBegin` is the address of the first element, `data`
the elements in `[mBegin, mEnd)` and `capacity` is `mCapacityEnd - mBegin`. -/
structure RawVector where
  mBegin : Int
  data : List Nat
  capacity : Nat
deriving DecidableEq

namespace RawVector

/-- Modelled from the spec: the default constructed buffer, all three pointers null. -/
def empty : RawVector := ⟨0, [], 0⟩

/-- Modelled from the spec: `RawVector::size`. -/
def size (v : RawVector) : Nat := v.data.length

/-- Modelled from the spec: `RawVector::end`, the address one past the last element. -/
def mEnd (v : RawVector) : Int := v.mBegin + v.data.length

/-- Modelled from the spec: `RawVector::atCapacity`. -/
def atCapacity (v : RawVector) : Bool := v.data.length == v.capacity

/-- Modelled from the spec: `RawVector::rawPushBack`, which stores at `mEnd`
without checking the capacity. -/
def rawPushBack (v : RawVector) (x : Nat) : RawVector :=
  { v with data := v.data ++ [x] }

/-- Modelled from the spec: `RawVector::clear`, which forgets the elements and
keeps the memory. -/
def clear (v : RawVector) : RawVector := { v with data := [] }

/-- Modelled from the spec: `RawVector::setMemoryAndCopy(begin, capacityEnd)`:
the elements are copied to the new memory, which becomes the buffer
("reallocates both buffers to exactly size n, copies existing contents"). -/
def setMemoryAndCopy (v : RawVector) (newBegin : Int) (newCapacity : Nat) : RawVector :=
  ⟨newBegin, v.data, newCapacity⟩

end RawVector

/-- Modelled from the spec: the row record of the header, "a contiguous span
referencing a range within the shared column-index buffer and the shared
scalar-value buffer", as four addresses. -/
structure Row where
  mIndicesBegin : Int
  mIndicesEnd : Int
  mScalarsBegin : Int
  mScalarsEnd : Int
deriving DecidableEq

/-- Modelled from the spec: `Row::size`, the number of entries of a span. -/
def Row.size (r : Row) : Nat := (r.mIndicesEnd - r.mIndicesBegin).toNat

/-- Modelled from the spec: `Row::empty`. -/
def Row.empty (r : Row) : Bool := r.mIndicesBegin == r.mIndicesEnd

/-- The pointer additions done on one row by the last loop of `reserveEntries`. -/
def Row.rebase (entryPtrDelta scalarPtrDelta : Int) (r : Row) : Row :=
  ⟨r.mIndicesBegin + entryPtrDelta, r.mIndicesEnd + entryPtrDelta,
   r.mScalarsBegin + scalarPtrDelta, r.mScalarsEnd + scalarPtrDelta⟩

end SparseMatrix

/-- The data members of `SparseMatrix`: `mColIndices`, `mEntries`, `mRows`, `mColCount`. -/
structure SparseMatrix where
  mColIndices : SparseMatrix.RawVector
  mEntries : SparseMatrix.RawVector
  mRows : List SparseMatrix.Row
  mColCount : Nat
deriving DecidableEq

namespace SparseMatrix

/-- An entry as read through a row iterator: `(index, scalar)`. -/
abbrev Entry := Nat × Nat

/-- Modelled from the spec: the default constructed matrix. -/
def new : SparseMatrix := ⟨RawVector.empty, RawVector.empty, [], 0⟩

/-- Modelled from the spec: `rowCount()`. -/
def rowCount (m : SparseMatrix) : Nat := m.mRows.length

/-- Modelled from the spec: `colCount()`. -/
def colCount (m : SparseMatrix) : Nat := m.mColCount

/-- Modelled from the spec: `entryCount()`, the number of stored entries. -/
def entryCount (m : SparseMatrix) : Nat := m.mEntries.data.length

/-- Modelled from the spec: the shared capacity, read from the scalar buffer as
`reserveEntries` does. -/
def capacity (m : SparseMatrix) : Nat := m.mEntries.capacity

/-- Modelled from the spec: the entries visited by a row iterator that runs
from the begin pointers of the span `r` to its end: the slice of the column
buffer paired, position by position, with the slice of the scalar buffer. -/
def spanEntries (m : SparseMatrix) (r : Row) : List Entry :=
  ((m.mColIndices.data.drop (r.mIndicesBegin - m.mColIndices.mBegin).toNat).take r.size).zip
    ((m.mEntries.data.drop (r.mScalarsBegin - m.mEntries.mBegin).toNat).take r.size)

/-- The span stored for row index `row` (`mRows[row]`). -/
def rowAt (m : SparseMatrix) (row : Nat) : Row := m.mRows.getD row ⟨0, 0, 0, 0⟩

/-- Modelled from the spec: the entries between `rowBegin(row)` and `rowEnd(row)`. -/
def rowEntries (m : SparseMatrix) (row : Nat) : List Entry := m.spanEntries (m.rowAt row)

/-- Modelled from the spec: `entryCountInRow(row)`. -/
def entryCountInRow (m : SparseMatrix) (row : Nat) : Nat := (m.rowAt row).size

/-- The content of every closed row, in row order. -/
def rows (m : SparseMatrix) : List (List Entry) := m.mRows.map m.spanEntries

/-- The span that `rowDone` records: from where the previous row ended (or the
buffer start) to the current buffer tail. -/
def openRow (m : SparseMatrix) : Row :=
  match m.mRows.getLast? with
  | none => ⟨m.mColIndices.mBegin, m.mColIndices.mEnd, m.mEntries.mBegin, m.mEntries.mEnd⟩
  | some r => ⟨r.mIndicesEnd, m.mColIndices.mEnd, r.mScalarsEnd, m.mEntries.mEnd⟩

/-- The entries appended since the last `rowDone`: the content of the open row. -/
def pending (m : SparseMatrix) : List Entry := m.spanEntries m.openRow

/-- Every stored entry, position by position in the two buffers. -/
def stored (m : SparseMatrix) : List Entry := m.mColIndices.data.zip m.mEntries.data

/-- Source lines 200-227, `reserveEntries(count)`. -/
def reserveEntries (m : SparseMatrix) (h : Heap) (count : Nat) : SparseMatrix × Heap :=
  if count < m.mEntries.capacity then (m, h)
  else
    let (sBegin, h1) := h.alloc
    let scalarPtrDelta := sBegin - m.mEntries.mBegin
    let entries := m.mEntries.setMemoryAndCopy sBegin count
    let (iBegin, h2) := h1.alloc
    let entryPtrDelta := iBegin - m.mColIndices.mBegin
    let colIndices := m.mColIndices.setMemoryAndCopy iBegin count
    (⟨colIndices, entries, m.mRows.map (Row.rebase entryPtrDelta scalarPtrDelta), m.mColCount⟩, h2)

/-- Source lines 229-242, `growEntryCapacity()` (its assertions are debug only). -/
def growEntryCapacity (m : SparseMatrix) (h : Heap) : SparseMatrix × Heap :=
  let initialCapacity := 65536
  let growthFactor := 2
  let newCapacity :=
    if m.mEntries.data.isEmpty then initialCapacity else m.mEntries.capacity * growthFactor
  m.reserveEntries h newCapacity

/-- Modelled from the spec: `appendEntry(col, scalar)` of the header: "requires
growing capacity first if full.  Appends (col, scalar) to the tail of both
buffers." -/
def appendEntry (m : SparseMatrix) (h : Heap) (col scalar : Nat) : SparseMatrix × Heap :=
  let st := if m.mEntries.atCapacity then m.growEntryCapacity h else (m, h)
  ({ st.1 with mColIndices := st.1.mColIndices.rawPushBack col,
               mEntries := st.1.mEntries.rawPushBack scalar }, st.2)

/-- Modelled from the spec: `rowDone()` of the header: "closes the currently open
row by recording a span from where the previous row ended (or buffer start) to
the current buffer tail, appends this span to the row list". -/
def rowDone (m : SparseMatrix) : SparseMatrix :=
  { m with mRows := m.mRows ++ [m.openRow] }

/-- Source lines 122-127, `clear(newColCount)`. -/
def clear (m : SparseMatrix) (newColCount : Nat) : SparseMatrix :=
  ⟨m.mColIndices.clear, m.mEntries.clear, [], newColCount⟩

/-- A loop `for (; it != end; ++it) appendEntry(f(it))` over already read entries. -/
def appendEntries (m : SparseMatrix) (h : Heap) : List Entry → SparseMatrix × Heap
  | [] => (m, h)
  | e :: rest =>
    let (m1, h1) := m.appendEntry h e.1 e.2
    appendEntries m1 h1 rest

/-- Source lines 106-113, `appendRow(matrix, row)`.  The source `matrix` is a
value distinct from the receiver. -/
def appendRow (this : SparseMatrix) (h : Heap) (matrix : SparseMatrix) (row : Nat) :
    SparseMatrix × Heap :=
  let (m1, h1) := this.appendEntries h (matrix.rowEntries row)
  (m1.rowDone, h1)

/-- Modelled from the spec: `modularInverse(s, modulus)` (defined outside the
sources): "given a nonzero scalar `s` and an odd prime `modulus` greater than
`s`, returns the unique `t` in `[1, modulus)` with `s·t ≡ 1 (mod modulus)`".
The search returns that `t`; where none exists the contract leaves the result
undefined and the model gives 0. -/
def modularInverse (s modulus : Nat) : Nat :=
  ((List.range modulus).find? (fun t => decide (1 ≤ t ∧ s * t % modulus = 1))).getD 0

/-- Source lines 85-104, `appendRowAndNormalize(matrix, row, modulus)`.  `prod`
is a `uint32` product and `prodMod` a `uint16`. -/
def appendRowAndNormalize (this : SparseMatrix) (h : Heap) (matrix : SparseMatrix) (row : Nat)
    (modulus : Nat) : SparseMatrix × Heap :=
  match matrix.rowEntries row with
  | [] => (this.rowDone, h)
  | (index, lead) :: rest =>
    let (m1, h1) := this.appendEntry h index 1
    match rest with
    | [] => (m1.rowDone, h1)
    | _ :: _ =>
      let inverse := modularInverse lead modulus % scalarSize
      let (m2, h2) := m1.appendEntries h1
        (rest.map (fun e =>
          let prod := (inverse % uint32Size) * e.2 % uint32Size
          let prodMod := (prod % modulus) % scalarSize
          (e.1, prodMod)))
      (m2.rowDone, h2)

/-- Source lines 129-138, `appendRowWithModulus(v, modulus)`: one step of the
loop over `col`. -/
def appendRowWithModulusStep (v : List Nat) (modulus : Nat) (st : SparseMatrix × Heap)
    (col : Nat) : SparseMatrix × Heap :=
  let scalar := (v.getD col 0 % modulus) % scalarSize
  if scalar != 0 then st.1.appendEntry st.2 col scalar else st

/-- Source lines 129-138, `appendRowWithModulus(v, modulus)`. -/
def appendRowWithModulus (this : SparseMatrix) (h : Heap) (v : List Nat) (modulus : Nat) :
    SparseMatrix × Heap :=
  let count := this.colCount
  let (m1, h1) := (List.range count).foldl (appendRowWithModulusStep v modulus) (this, h)
  (m1.rowDone, h1)

/-- Source lines 140-155, `appendRow(v, leadCol)`: one step of the loop over
`col`; the scalar is the `uint64` value narrowed to 16 bits. -/
def appendRowDenseStep (v : List Nat) (st : SparseMatrix × Heap) (col : Nat) :
    SparseMatrix × Heap :=
  if v.getD col 0 != 0 then st.1.appendEntry st.2 col (v.getD col 0 % scalarSize) else st

/-- Source lines 140-155, the overload `appendRow(v, leadCol)` for a dense row
(release build: the assertions do not run). -/
def appendRowDense (this : SparseMatrix) (h : Heap) (v : List Nat) (leadCol : Nat) :
    SparseMatrix × Heap :=
  let count := this.colCount
  let (m1, h1) := (List.range' leadCol (count - leadCol)).foldl (appendRowDenseStep v) (this, h)
  (m1.rowDone, h1)

/-- The local variables of the loop of `appendRowWithModulusNormalized`. -/
structure NormalizedLoop where
  matrix : SparseMatrix
  heap : Heap
  multiply : Nat
  first : Bool

/-- Source lines 163-176: one step of the loop over `col`. -/
def appendRowWithModulusNormalizedStep (v : List Nat) (modulus : Nat) (st : NormalizedLoop)
    (col : Nat) : NormalizedLoop :=
  let scalar := (v.getD col 0 % modulus) % scalarSize
  if scalar == 0 then st
  else if st.first then
    let multiply := modularInverse scalar modulus % scalarSize
    let r := st.matrix.appendEntry st.heap col 1
    ⟨r.1, r.2, multiply, false⟩
  else
    let prod := (st.multiply % uint32Size) * scalar % uint32Size
    let r := st.matrix.appendEntry st.heap col ((prod % modulus) % scalarSize)
    ⟨r.1, r.2, st.multiply, st.first⟩

/-- Source lines 157-178, `appendRowWithModulusNormalized(v, modulus)`. -/
def appendRowWithModulusNormalized (this : SparseMatrix) (h : Heap) (v : List Nat)
    (modulus : Nat) : SparseMatrix × Heap :=
  let count := this.colCount
  let st := (List.range count).foldl (appendRowWithModulusNormalizedStep v modulus)
    ⟨this, h, 1, true⟩
  (st.matrix.rowDone, st.heap)

/-- Source lines 180-188, `appendRowWithModulusIfNonZero(v, modulus)`; the third
component is the returned `bool`. -/
def appendRowWithModulusIfNonZero (this : SparseMatrix) (h : Heap) (v : List Nat)
    (modulus : Nat) : SparseMatrix × Heap × Bool :=
  let (m1, h1) := this.appendRowWithModulus h v modulus
  match m1.mRows.getLast? with
  | some back =>
    if back.empty then ({ m1 with mRows := m1.mRows.dropLast }, h1, false)
    else (m1, h1, true)
  | none => (m1, h1, true)

/-- The `uint32` subtraction `a -= b` on column indices. -/
def subColIndex (a b : Nat) : Nat := (a + colIndexSize - b % colIndexSize) % colIndexSize

/-- Source lines 190-198, `trimLeadingZeroColumns(trimThisMany)`. -/
def trimLeadingZeroColumns (m : SparseMatrix) (trimThisMany : Nat) : SparseMatrix :=
  { m with
    mColIndices :=
      { m.mColIndices with data := m.mColIndices.data.map (fun c => subColIndex c trimThisMany) }
    mColCount := subColIndex m.mColCount trimThisMany }

/-- Source lines 56-63, `applyColumnMap(colMap)`. -/
def applyColumnMap (m : SparseMatrix) (colMap : List Nat) : SparseMatrix :=
  { m with
    mColIndices :=
      { m.mColIndices with data := m.mColIndices.data.map (fun c => colMap.getD c 0) } }

/-- The order of `std::pair<ColIndex, RowIndex>` used by `std::sort`: first
components first, then second components. -/
def pairLE (a b : Nat × Nat) : Prop := a.1 < b.1 ∨ (a.1 = b.1 ∧ a.2 ≤ b.2)

instance : DecidableRel pairLE := fun a b => by unfold pairLE; infer_instance

instance : IsTotal (Nat × Nat) pairLE :=
  ⟨fun a b => by unfold pairLE; omega⟩

instance : IsTrans (Nat × Nat) pairLE :=
  ⟨fun a b c => by unfold pairLE; omega⟩

/-- The call `std::sort(order.begin(), order.end())`: the standard library
returns the elements arranged in non-decreasing order. -/
def stdSort (order : List (Nat × Nat)) : List (Nat × Nat) := order.insertionSort pairLE

/-- Source lines 32-37: the pair `(pivot column index, row)` pushed for `row`. -/
def pivotPair (m : SparseMatrix) (row : Nat) : Nat × Nat :=
  if m.entryCountInRow row = 0 then (m.colCount, row)
  else (((m.rowEntries row).headD (0, 0)).1, row)

/-- Source lines 44-51: the copy of the row `order[i].second` into `ordered`. -/
def sortCopyStep (this : SparseMatrix) (order : List (Nat × Nat)) (st : SparseMatrix × Heap)
    (i : Nat) : SparseMatrix × Heap :=
  let row := (order.getD i (0, 0)).2
  let (m1, h1) := st.1.appendEntries st.2 (this.rowEntries row)
  (m1.rowDone, h1)

/-- Source lines 25-54, `sortRowsByIncreasingPivots()`: the result is the
matrix `ordered` moved into the receiver. -/
def sortRowsByIncreasingPivots (this : SparseMatrix) (h : Heap) : SparseMatrix × Heap :=
  let lRowCount := this.rowCount
  let lColCount := this.colCount
  let order := stdSort ((List.range lRowCount).map this.pivotPair)
  let ordered := SparseMatrix.new.clear lColCount
  (List.range lRowCount).foldl (sortCopyStep this order) (ordered, h)

/-- Modelled from the spec: the external polynomial type `Poly` (its header is
not among the sources), as the list of its terms `(coefficient, monomial)` in
the order appended. -/
abbrev Poly (μ : Type) := List (Nat × μ)

/-- Modelled from the spec: `Poly::setToZero`, which "resets `outPolynomial` to empty". -/
def Poly.setToZero {μ : Type} (_poly : Poly μ) : Poly μ := []

/-- Modelled from the spec: `Poly::appendTerm(coefficient, monomial)`, which
appends one term. -/
def Poly.appendTerm {μ : Type} (poly : Poly μ) (coefficient : Nat) (monomial : μ) : Poly μ :=
  poly ++ [(coefficient, monomial)]

/-- Source lines 12-23, `rowToPolynomial(row, colMonomials, poly)`; the result
is the content of `poly` after the call. -/
def rowToPolynomial {μ : Type} [Inhabited μ] (m : SparseMatrix) (row : Nat)
    (colMonomials : List μ) (poly : Poly μ) : Poly μ :=
  (m.rowEntries row).foldl
    (fun acc e =>
      if e.2 != 0 then Poly.appendTerm acc e.2 (colMonomials.getD e.1 default) else acc)
    (Poly.setToZero poly)

/-! ## Sequences of construction operations -/

/-- One call of the row construction protocol. -/
inductive Op where
  | appendEntry (col scalar : Nat)
  | rowDone
deriving DecidableEq

/-- The call `op` made on the matrix of the state `st`. -/
def applyOp (st : SparseMatrix × Heap) : Op → SparseMatrix × Heap
  | Op.appendEntry col scalar => st.1.appendEntry st.2 col scalar
  | Op.rowDone => (st.1.rowDone, st.2)

/-- The calls `ops` made one after the other on the matrix `m`. -/
def run (m : SparseMatrix) (h : Heap) (ops : List Op) : SparseMatrix × Heap :=
  ops.foldl applyOp (m, h)

/-- The number of `appendEntry` calls in a sequence of operations. -/
def appendCount : List Op → Nat
  | [] => 0
  | Op.appendEntry _ _ :: rest => appendCount rest + 1
  | Op.rowDone :: rest => appendCount rest

/-- The closed rows and the open row that a sequence of operations builds from
the closed rows `rs` and the open row `pend`. -/
def buildRows (rs : List (List Entry)) (pend : List Entry) : List Op →
    List (List Entry) × List Entry
  | [] => (rs, pend)
  | Op.appendEntry col scalar :: rest => buildRows rs (pend ++ [(col, scalar)]) rest
  | Op.rowDone :: rest => buildRows (rs ++ [pend]) [] rest

/-! ## The class invariant -/

/-- The spans of consecutive rows with the given contents, the first one
starting at the addresses `ib` and `sb`. -/
def spansFrom (ib sb : Int) : List (List Entry) → List Row
  | [] => []
  | r :: rest =>
    ⟨ib, ib + r.length, sb, sb + r.length⟩ :: spansFrom (ib + r.length) (sb + r.length) rest

/-- The matrix `m` represents the closed rows `rs` followed by the open row
`pend`: the buffers are index-parallel, within capacity, hold the rows back to
back, and the recorded spans are the consecutive slices from the buffer starts. -/
def Rep (m : SparseMatrix) (rs : List (List Entry)) (pend : List Entry) : Prop :=
  m.mColIndices.data.length = m.mEntries.data.length ∧
  m.mColIndices.capacity = m.mEntries.capacity ∧
  m.mEntries.data.length ≤ m.mEntries.capacity ∧
  m.stored = rs.flatten ++ pend ∧
  m.mRows = spansFrom m.mColIndices.mBegin m.mEntries.mBegin rs

/-- The class invariant of `SparseMatrix` ("the two buffers always have equal
length and equal capacity", "every row's span is a valid, non-overlapping,
order-preserving slice of the two buffers"). -/
def Inv (m : SparseMatrix) : Prop := Rep m m.rows m.pending

instance (m : SparseMatrix) : Decidable (Inv m) := by unfold Inv Rep; infer_instance

/-- No stored entry has scalar 0 (the sparsity invariant). -/
def NoZero (m : SparseMatrix) : Prop := ∀ e ∈ m.stored, e.2 ≠ 0

instance (m : SparseMatrix) : Decidable (NoZero m) := by unfold NoZero; infer_instance

/-- The pivot of a row content: the column of its first entry, `colCount` for
an empty row. -/
def pivot (colCount : Nat) (r : List Entry) : Nat :=
  match r with
  | [] => colCount
  | e :: _ => e.1

/-! ## The rows the operations are specified to append -/

/-- The normalized row in the words of the spec: an empty row stays empty;
otherwise the first entry gets scalar 1 and every later entry `(c, s0)` becomes
`(c, (modularInverse(lead, p) * s0) mod p)`, `lead` being the first scalar. -/
def normalizedRow (p : Nat) : List Entry → List Entry
  | [] => []
  | (c, lead) :: rest => (c, 1) :: rest.map (fun e => (e.1, modularInverse lead p * e.2 % p))

/-- The sparsification of a dense row in the words of the spec: the pairs
`(c, v[c] mod modulus)` for `c = 0 .. colCount-1`, in increasing `c`, restricted
to those with `v[c] mod modulus != 0`. -/
def sparsified (v : List Nat) (modulus colCount : Nat) : List Entry :=
  ((List.range colCount).map (fun c => (c, v.getD c 0 % modulus))).filter (fun e => e.2 != 0)

/-- The entries appended by the loop of `appendRow(v, leadCol)` over the `n`
columns from `leadCol` on: one for every column with a non-zero value, holding
the value narrowed to the 16-bit scalar. -/
def denseCopied (v : List Nat) (leadCol n : Nat) : List Entry :=
  ((List.range' leadCol n).filter (fun c => v.getD c 0 != 0)).map
    (fun c => (c, v.getD c 0 % scalarSize))

/-- The call that turned `before` into `after` appended the row `x`: it closed
one more row, made of the open-row entries of `before` (none when `before` is
between rows) followed by `x`, after the rows of `before`. -/
def AppendedRow (before after : SparseMatrix) (x : List Entry) : Prop :=
  after.rows = before.rows ++ [before.pending ++ x]

/-- The column indices of a row are strictly increasing. -/
def StrictlyIncreasing (r : List Entry) : Prop := (r.map Prod.fst).Pairwise (· < ·)

instance (r : List Entry) : Decidable (StrictlyIncreasing r) := by
  unfold StrictlyIncreasing; infer_instance

/-- The matrix `after` is `before` with further entries appended to its open
row: the capacity did not shrink, `colCount` is the same, and whatever rows and
open row `before` represents, `after` represents the same rows and the open row
extended by the new entries. -/
def Grows (before after : SparseMatrix) : Prop :=
  before.capacity ≤ after.capacity ∧ after.colCount = before.colCount ∧
    ∃ x, ∀ rs pend, Rep before rs pend → Rep after rs (pend ++ x)

/-- The matrix `after` has one row more than `before`, the same `colCount`, and
every row of `before` unchanged at its index. -/
def OneRowAppended (before after : SparseMatrix) : Prop :=
  after.rowCount = before.rowCount + 1 ∧ after.colCount = before.colCount ∧
    ∀ i, i < before.rowCount → after.rowEntries i = before.rowEntries i

/-- The two buffers of `after` have equal size and equal capacity. -/
def Balanced (after : SparseMatrix) : Prop :=
  after.mColIndices.data.length = after.mEntries.data.length ∧
    after.mColIndices.capacity = after.mEntries.capacity

/-- The capacity of `after` is at least the capacity of `before`, and the two
buffers of `after` have equal size and equal capacity. -/
def CapacityKept (before after : SparseMatrix) : Prop :=
  before.capacity ≤ after.capacity ∧ Balanced after

instance (before after : SparseMatrix) : Decidable (CapacityKept before after) := by
  unfold CapacityKept Balanced; infer_instance

/-- Modelled from the spec: the debug assertions of `appendEntry(col, scalar)`,
which "requires `col < colCount` and `scalar != 0`". -/
def appendEntryRequires (m : SparseMatrix) (col scalar : Nat) : Prop :=
  col < m.colCount ∧ scalar ≠ 0

/-- Source lines 141-152: the assertions that a debug build checks during
`appendRow(v, leadCol)`: the length of `v` (line 141), the loop of lines 143-145,
which starts at `leadCol` and runs while `col < leadCol`, the bound of line 150,
`v[col] < std::numeric_limits<Scalar>::max()`, for every scanned column, and
the requirements of each `appendEntry` call of line 152. -/
def appendRowDenseChecks (this : SparseMatrix) (v : List Nat) (leadCol : Nat) : Prop :=
  v.length = this.colCount ∧
    (∀ col ∈ List.range' leadCol (leadCol - leadCol), v.getD col 0 = 0) ∧
    (∀ col ∈ List.range' leadCol (this.colCount - leadCol), v.getD col 0 < scalarSize - 1) ∧
    (∀ col ∈ List.range' leadCol (this.colCount - leadCol), v.getD col 0 ≠ 0 →
      appendEntryRequires this col (v.getD col 0 % scalarSize))

instance (this : SparseMatrix) (v : List Nat) (leadCol : Nat) :
    Decidable (appendRowDenseChecks this v leadCol) := by
  unfold appendRowDenseChecks appendEntryRequires; infer_instance

/-- Source lines 230-241: the assertions that a debug build checks in
`growEntryCapacity()`: the two opening ones on the state before the call and
the three closing ones, `size` equal and both capacities `== newCapacity`. -/
def growEntryCapacityChecks (m : SparseMatrix) (h : Heap) : Prop :=
  m.mColIndices.data.length = m.mEntries.data.length ∧
    m.mColIndices.capacity = m.mEntries.capacity ∧
    (m.growEntryCapacity h).1.mColIndices.data.length =
      (m.growEntryCapacity h).1.mEntries.data.length ∧
    (m.growEntryCapacity h).1.mColIndices.capacity =
      (if m.mEntries.data.isEmpty then 65536 else m.mEntries.capacity * 2) ∧
    (m.growEntryCapacity h).1.mEntries.capacity =
      (if m.mEntries.data.isEmpty then 65536 else m.mEntries.capacity * 2)

instance (m : SparseMatrix) (h : Heap) : Decidable (growEntryCapacityChecks m h) := by
  unfold growEntryCapacityChecks; infer_instance

/-- Row `i` comes before row `j` in the increasing lexicographic order of
(pivot, original row index) of the matrix `m`. -/
def pivotBefore (m : SparseMatrix) (i j : Nat) : Prop :=
  pivot m.colCount (m.rowEntries i) < pivot m.colCount (m.rowEntries j) ∨
    (pivot m.colCount (m.rowEntries i) = pivot m.colCount (m.rowEntries j) ∧ i < j)

instance (m : SparseMatrix) : DecidableRel (pivotBefore m) := fun i j => by
  unfold pivotBefore; infer_instance

/-! ## Concrete matrices used to evaluate the operations -/

/-- An allocator whose calls number 0, 1, 2, ... return the addresses 1048576,
2097152, 3145728, ..., seen after `used` calls. -/
def exampleHeap (used : Nat) : Heap := ⟨fun k => 1048576 * (k + 1), used⟩

/-- The matrix with `colCount = 4` and the rows `[(2,1)]`, `[]`, `[(0,4)]`,
built through `clear`, `appendEntry` and `rowDone`; its buffers come from the
allocations 0 and 1. -/
def exampleMatrix : SparseMatrix :=
  let m0 := SparseMatrix.new.clear 4
  let s1 := m0.appendEntry (exampleHeap 0) 2 1
  let m1 := s1.1.rowDone
  let m2 := m1.rowDone
  let s3 := m2.appendEntry s1.2 0 4
  s3.1.rowDone

/-- The empty matrix with `colCount = 4`. -/
def exampleEmpty : SparseMatrix := SparseMatrix.new.clear 4

/-- The matrix with `colCount = 4`, no closed row and the single entry `(0,1)`
in its open row: `appendEntry(0, 1)` was called and `rowDone()` was not; its
buffers come from the allocations 2 and 3. -/
def exampleOpenMatrix : SparseMatrix :=
  ((SparseMatrix.new.clear 4).appendEntry (exampleHeap 2) 0 1).1

/-- The matrix with `colCount = 4` and the single row `[(1,3), (3,5)]`, built by
`appendRowWithModulus` from the dense row `[0, 3, 0, 5]` and the modulus 7; its
buffers come from the allocations 4 and 5. -/
def exampleDenseMatrix : SparseMatrix :=
  (exampleEmpty.appendRowWithModulus (exampleHeap 4) [0, 3, 0, 5] 7).1

/-- The matrix with `colCount = 4`, the row `[(0,1)]` and full buffers of
capacity 1: `reserveEntries(1)`, `appendEntry(0, 1)`, `rowDone()`; its buffers
come from the allocations 10 and 11. -/
def exampleFullMatrix : SparseMatrix :=
  ((((SparseMatrix.new.clear 4).reserveEntries (exampleHeap 10) 1).1.appendEntry
    (exampleHeap 12) 0 1).1).rowDone

/-- The example matrix after `reserveEntries(100000)`: the rows `[(2,1)]`, `[]`,
`[(0,4)]` in buffers of capacity 100000 (allocations 14 and 15). -/
def exampleReservedMatrix : SparseMatrix :=
  (exampleMatrix.reserveEntries (exampleHeap 14) 100000).1

/-- The empty matrix with `colCount = 1`. -/
def exampleColumn : SparseMatrix := SparseMatrix.new.clear 1

/-- The matrix with `colCount = 4` and the rows `[(1,3), (3,5)]`, `[(0,2)]`,
`[(1,4)]`: rows 0 and 2 have the same pivot. -/
def exampleTieMatrix : SparseMatrix :=
  ((exampleDenseMatrix.appendRowDense (exampleHeap 6) [2, 0, 0, 0] 0).1.appendRowDense
    (exampleHeap 6) [0, 4, 0, 0] 0).1

/-! ## Reading the rows back from the spans -/

theorem spanEntries_eq (m : SparseMatrix) (r : Row) (a n : Nat)
    (hi : (r.mIndicesBegin - m.mColIndices.mBegin).toNat = a)
    (hs : (r.mScalarsBegin - m.mEntries.mBegin).toNat = a) (hn : r.size = n) :
    m.spanEntries r = (m.stored.drop a).take n := by
  unfold spanEntries stored
  rw [hi, hs, hn]
  simp [List.zip, List.take_zipWith, List.drop_zipWith]

theorem toNat_add_sub (b : Int) (n : Nat) : (b + n - b).toNat = n := by omega

theorem spansFrom_append (ib sb : Int) (rs rs2 : List (List Entry)) :
    spansFrom ib sb (rs ++ rs2) =
      spansFrom ib sb rs ++ spansFrom (ib + rs.flatten.length) (sb + rs.flatten.length) rs2 := by
  induction rs generalizing ib sb with
  | nil => simp [spansFrom]
  | cons r rest ih =>
    rw [List.cons_append]
    simp only [spansFrom, List.flatten_cons, List.length_append, Nat.cast_add]
    rw [ih, List.cons_append, Int.add_assoc, Int.add_assoc]

theorem length_spansFrom (ib sb : Int) (rs : List (List Entry)) :
    (spansFrom ib sb rs).length = rs.length := by
  induction rs generalizing ib sb with
  | nil => rfl
  | cons r rest ih => simp [spansFrom, ih]

theorem spansFrom_rebase (ib sb d e : Int) (rs : List (List Entry)) :
    (spansFrom ib sb rs).map (Row.rebase d e) = spansFrom (ib + d) (sb + e) rs := by
  induction rs generalizing ib sb with
  | nil => rfl
  | cons r rest ih =>
    simp only [spansFrom, List.map_cons, ih, Row.rebase]
    rw [show ib + r.length + d = ib + d + r.length by omega,
      show sb + r.length + e = sb + e + r.length by omega]

theorem map_spanEntries_spansFrom (m : SparseMatrix) (rs : List (List Entry))
    (pre post : List Entry) (hst : m.stored = pre ++ (rs.flatten ++ post)) :
    (spansFrom (m.mColIndices.mBegin + pre.length) (m.mEntries.mBegin + pre.length) rs).map
      m.spanEntries = rs := by
  induction rs generalizing pre with
  | nil => rfl
  | cons r rest ih =>
    simp only [spansFrom, List.map_cons, List.cons.injEq]
    constructor
    · rw [spanEntries_eq m _ pre.length r.length (toNat_add_sub _ _) (toNat_add_sub _ _)
        (by unfold Row.size; exact toNat_add_sub _ _), hst]
      simp [List.drop_left, List.take_left]
    · have h2 : m.stored = (pre ++ r) ++ (rest.flatten ++ post) := by
        rw [hst]; simp
      have := ih (pre ++ r) h2
      simpa [Int.add_assoc] using this

theorem Rep.rows_eq {m : SparseMatrix} {rs : List (List Entry)} {pend : List Entry}
    (h : Rep m rs pend) : m.rows = rs := by
  obtain ⟨_, _, _, hst, hrows⟩ := h
  unfold rows
  rw [hrows]
  have := map_spanEntries_spansFrom m rs [] pend (by simpa using hst)
  simpa using this

theorem openRow_spansFrom (m : SparseMatrix) (rs : List (List Entry))
    (hrows : m.mRows = spansFrom m.mColIndices.mBegin m.mEntries.mBegin rs) :
    m.openRow = ⟨m.mColIndices.mBegin + rs.flatten.length, m.mColIndices.mEnd,
      m.mEntries.mBegin + rs.flatten.length, m.mEntries.mEnd⟩ := by
  unfold openRow
  rcases List.eq_nil_or_concat rs with h | ⟨rs1, r, h⟩
  · subst h
    simp [hrows, spansFrom]
  · subst h
    rw [hrows, List.concat_eq_append, spansFrom_append]
    simp only [spansFrom, List.getLast?_concat, List.flatten_append, List.flatten_cons,
      List.flatten_nil, List.append_nil, List.length_append, Nat.cast_add, Int.add_assoc]

theorem Rep.pending_eq {m : SparseMatrix} {rs : List (List Entry)} {pend : List Entry}
    (h : Rep m rs pend) : m.pending = pend := by
  obtain ⟨hlen, _, _, hst, hrows⟩ := h
  unfold pending
  rw [openRow_spansFrom m rs hrows]
  have hl : m.stored.length = m.mColIndices.data.length := by
    simp [stored, hlen]
  have hl2 : m.mColIndices.data.length = rs.flatten.length + pend.length := by
    rw [← hl, hst, List.length_append]
  rw [spanEntries_eq m _ rs.flatten.length pend.length (toNat_add_sub _ _) (toNat_add_sub _ _)
    (by simp only [Row.size, RawVector.mEnd, hl2]; omega), hst]
  simp [List.drop_left]

theorem inv_iff (m : SparseMatrix) : Inv m ↔ ∃ rs pend, Rep m rs pend := by
  constructor
  · intro h
    exact ⟨_, _, h⟩
  · rintro ⟨rs, pend, h⟩
    unfold Inv
    rw [h.rows_eq, h.pending_eq]
    exact h

theorem Inv.rep {m : SparseMatrix} (h : Inv m) : Rep m m.rows m.pending := h

theorem Rep.inv {m : SparseMatrix} {rs : List (List Entry)} {pend : List Entry}
    (h : Rep m rs pend) : Inv m := (inv_iff m).2 ⟨rs, pend, h⟩

/-! ## The effect of the construction protocol on the represented rows -/

theorem reserveEntries_colCount (m : SparseMatrix) (h : Heap) (count : Nat) :
    (m.reserveEntries h count).1.mColCount = m.mColCount := by
  unfold reserveEntries
  split <;> rfl

theorem reserveEntries_capacity (m : SparseMatrix) (h : Heap) (count : Nat) :
    (m.reserveEntries h count).1.mEntries.capacity =
      if count < m.mEntries.capacity then m.mEntries.capacity else count := by
  unfold reserveEntries
  split <;> rfl

theorem Rep.reserveEntries {m : SparseMatrix} {rs : List (List Entry)} {pend : List Entry}
    (hm : Rep m rs pend) (h : Heap) (count : Nat) : Rep (m.reserveEntries h count).1 rs pend := by
  unfold SparseMatrix.reserveEntries
  split
  · exact hm
  · rename_i hc
    obtain ⟨hlen, hcap, hle, hst, hrows⟩ := hm
    refine ⟨hlen, rfl, ?_, hst, ?_⟩
    · show m.mEntries.data.length ≤ count
      omega
    · show m.mRows.map _ = spansFrom (h.alloc.2.alloc.1) (h.alloc.1) rs
      rw [hrows, spansFrom_rebase]
      congr 1 <;> omega

theorem Rep.growEntryCapacity {m : SparseMatrix} {rs : List (List Entry)} {pend : List Entry}
    (hm : Rep m rs pend) (h : Heap) : Rep (m.growEntryCapacity h).1 rs pend :=
  hm.reserveEntries h _

theorem growEntryCapacity_colCount (m : SparseMatrix) (h : Heap) :
    (m.growEntryCapacity h).1.mColCount = m.mColCount :=
  reserveEntries_colCount m h _

theorem growEntryCapacity_room {m : SparseMatrix} {rs : List (List Entry)} {pend : List Entry}
    (hm : Rep m rs pend) (h : Heap) (hfull : m.mEntries.data.length = m.mEntries.capacity) :
    (m.growEntryCapacity h).1.mEntries.data.length <
      (m.growEntryCapacity h).1.mEntries.capacity := by
  have hd : (m.growEntryCapacity h).1.mEntries.data.length = m.mEntries.data.length := by
    have h1 := (hm.growEntryCapacity h).2.2.2.1
    have h2 := hm.2.2.2.1
    have h3 := (hm.growEntryCapacity h).1
    have h4 := hm.1
    have e1 : (m.growEntryCapacity h).1.stored.length = m.stored.length := by rw [h1, h2]
    simp only [stored, List.length_zip, h3, h4, Nat.min_self] at e1
    exact e1
  rw [hd]
  unfold SparseMatrix.growEntryCapacity
  rw [reserveEntries_capacity]
  cases hdata : m.mEntries.data with
  | nil =>
    simp only [hdata, List.length_nil] at hfull
    simp [← hfull]
  | cons x xs =>
    simp only [hdata, List.length_cons] at hfull
    simp only [List.isEmpty_cons, Bool.false_eq_true, if_false, List.length_cons]
    split <;> omega

theorem appendEntry_colCount (m : SparseMatrix) (h : Heap) (col scalar : Nat) :
    (m.appendEntry h col scalar).1.mColCount = m.mColCount := by
  unfold appendEntry
  by_cases hfull : m.mEntries.atCapacity = true
  · simp only [hfull, if_true]
    exact growEntryCapacity_colCount m h
  · simp only [hfull, Bool.false_eq_true, if_false]

theorem Rep.appendEntry {m : SparseMatrix} {rs : List (List Entry)} {pend : List Entry}
    (hm : Rep m rs pend) (h : Heap) (col scalar : Nat) :
    Rep (m.appendEntry h col scalar).1 rs (pend ++ [(col, scalar)]) := by
  have key : ∀ m1 : SparseMatrix, Rep m1 rs pend →
      m1.mEntries.data.length < m1.mEntries.capacity →
      Rep { m1 with mColIndices := m1.mColIndices.rawPushBack col,
                    mEntries := m1.mEntries.rawPushBack scalar } rs (pend ++ [(col, scalar)]) := by
    intro m1 ⟨hlen, hcap, _, hst, hrows⟩ hroom
    refine ⟨?_, hcap, ?_, ?_, hrows⟩
    · simp [RawVector.rawPushBack, hlen]
    · simp only [RawVector.rawPushBack, List.length_append, List.length_singleton]
      omega
    · simp only [stored, RawVector.rawPushBack] at hst ⊢
      rw [List.zip_append hlen, hst]
      simp
  unfold SparseMatrix.appendEntry
  by_cases hfull : m.mEntries.atCapacity = true
  · simp only [hfull, if_true]
    refine key _ (hm.growEntryCapacity h) (growEntryCapacity_room hm h ?_)
    simpa [RawVector.atCapacity] using hfull
  · simp only [hfull, Bool.false_eq_true, if_false]
    refine key _ hm ?_
    have := hm.2.2.1
    simp only [RawVector.atCapacity, beq_iff_eq] at hfull
    omega

theorem Rep.rowDone {m : SparseMatrix} {rs : List (List Entry)} {pend : List Entry}
    (hm : Rep m rs pend) : Rep m.rowDone (rs ++ [pend]) [] := by
  obtain ⟨hlen, hcap, hle, hst, hrows⟩ := hm
  refine ⟨hlen, hcap, hle, ?_, ?_⟩
  · show m.stored = _
    rw [hst]; simp
  · show m.mRows ++ [m.openRow] = spansFrom m.mColIndices.mBegin m.mEntries.mBegin (rs ++ [pend])
    have hl : m.stored.length = m.mColIndices.data.length := by
      simp [stored, hlen]
    have hl2 : m.mColIndices.data.length = rs.flatten.length + pend.length := by
      rw [← hl, hst, List.length_append]
    rw [openRow_spansFrom m rs hrows, spansFrom_append, ← hrows]
    simp only [spansFrom, RawVector.mEnd, ← hlen, hl2, Nat.cast_add, Int.add_assoc]

theorem rowDone_colCount (m : SparseMatrix) : m.rowDone.mColCount = m.mColCount := rfl

theorem appendEntries_colCount (m : SparseMatrix) (h : Heap) (es : List Entry) :
    (m.appendEntries h es).1.mColCount = m.mColCount := by
  induction es generalizing m h with
  | nil => rfl
  | cons e rest ih =>
    simp only [appendEntries]
    rw [ih, appendEntry_colCount]

theorem Rep.appendEntries {m : SparseMatrix} {rs : List (List Entry)} {pend : List Entry}
    (hm : Rep m rs pend) (h : Heap) (es : List Entry) :
    Rep (m.appendEntries h es).1 rs (pend ++ es) := by
  induction es generalizing m h pend with
  | nil => simpa [SparseMatrix.appendEntries] using hm
  | cons e rest ih =>
    simp only [SparseMatrix.appendEntries]
    have := ih (hm.appendEntry h e.1 e.2) (m.appendEntry h e.1 e.2).2
    simpa using this

/-! ## Row transfer operations -/

theorem Rep.appendRow {this : SparseMatrix} {rs : List (List Entry)} {pend : List Entry}
    (hm : Rep this rs pend) (h : Heap) (src : SparseMatrix) (row : Nat) :
    Rep (this.appendRow h src row).1 (rs ++ [pend ++ src.rowEntries row]) [] :=
  (hm.appendEntries h (src.rowEntries row)).rowDone

theorem modularInverse_lt (s p : Nat) (hp : 0 < p) : modularInverse s p < p := by
  unfold modularInverse
  cases hf : (List.range p).find? (fun t => decide (1 ≤ t ∧ s * t % p = 1)) with
  | none => simpa using hp
  | some t =>
    have := List.mem_of_find?_eq_some hf
    simpa using this

theorem normalize_scalar (lead s p : Nat) (hp : 0 < p) (hp16 : p ≤ scalarSize)
    (hs : s < scalarSize) :
    ((modularInverse lead p % scalarSize % uint32Size) * s % uint32Size) % p % scalarSize =
      modularInverse lead p * s % p := by
  have hi := modularInverse_lt lead p hp
  simp only [scalarSize, uint32Size] at *
  have h1 : modularInverse lead p % 65536 = modularInverse lead p := Nat.mod_eq_of_lt (by omega)
  have h2 : modularInverse lead p % 4294967296 = modularInverse lead p :=
    Nat.mod_eq_of_lt (by omega)
  have h3 : modularInverse lead p * s < 4294967296 := by
    have : modularInverse lead p * s ≤ 65535 * 65535 :=
      Nat.mul_le_mul (by omega) (by omega)
    omega
  rw [h1, h2, Nat.mod_eq_of_lt h3]
  exact Nat.mod_eq_of_lt (lt_of_lt_of_le (Nat.mod_lt _ hp) hp16)

theorem Rep.appendRowAndNormalize {this : SparseMatrix} {rs : List (List Entry)}
    {pend : List Entry} (hm : Rep this rs pend) (h : Heap) (src : SparseMatrix) (row : Nat)
    (p : Nat) (hp : 0 < p) (hp16 : p ≤ scalarSize)
    (hs : ∀ e ∈ src.rowEntries row, e.2 < scalarSize) :
    Rep (this.appendRowAndNormalize h src row p).1
      (rs ++ [pend ++ normalizedRow p (src.rowEntries row)]) [] := by
  unfold SparseMatrix.appendRowAndNormalize
  generalize src.rowEntries row = srow at hs
  match srow with
  | [] => simpa [normalizedRow] using hm.rowDone
  | [(c, lead)] => simpa [normalizedRow] using (hm.appendEntry h c 1).rowDone
  | (c, lead) :: e :: rest =>
    simp only [normalizedRow]
    have hmap : ((e :: rest).map (fun e =>
          (e.1, ((modularInverse lead p % scalarSize % uint32Size) * e.2 % uint32Size)
            % p % scalarSize))) =
        (e :: rest).map (fun e => (e.1, modularInverse lead p * e.2 % p)) := by
      apply List.map_congr_left
      intro x hx
      rw [normalize_scalar lead x.2 p hp hp16 (hs x (by simp at hx ⊢; tauto))]
    have := ((hm.appendEntry h c 1).appendEntries (this.appendEntry h c 1).2
      ((e :: rest).map (fun e => (e.1, modularInverse lead p * e.2 % p)))).rowDone
    rw [hmap]
    simpa using this

/-- C1 (amended): for every source matrix and row index, and every receiving
matrix in a valid state with no pending open-row entries, after
`appendRow(sourceMatrix, sourceRow)` the last row of the receiver has exactly
the sequence of (column, scalar) pairs of the source row, in the same order. -/
theorem appendRow_round_trip (this src : SparseMatrix) (h : Heap) (row : Nat)
    (hthis : Inv this) (hpend : this.pending = []) :
    (this.appendRow h src row).1.rows.getLast? = some (src.rowEntries row) := by
  have := (hthis.rep.appendRow h src row).rows_eq
  rw [this, hpend]
  simp

/-- C1, witness: the amended round trip at a concrete receiver and source. -/
theorem appendRow_round_trip_witness :
    Inv exampleEmpty ∧ exampleEmpty.pending = [] ∧
      (exampleEmpty.appendRow (exampleHeap 6) exampleMatrix 0).1.rows.getLast? =
        some (exampleMatrix.rowEntries 0) :=
  ⟨by decide, by decide,
    appendRow_round_trip exampleEmpty exampleMatrix (exampleHeap 6) 0 (by decide) (by decide)⟩

/-- C1, counterexample: a receiver with `colCount = 4` on which `appendEntry(0, 1)`
was called without `rowDone()`, and the source row `[(2,1)]`: the columns are
covered, yet the last row of the receiver is `[(0,1), (2,1)]`, not the source row. -/
theorem appendRow_round_trip_counterexample :
    Inv exampleOpenMatrix ∧ Inv exampleMatrix ∧ 0 < exampleMatrix.rowCount ∧
      (∀ e ∈ exampleMatrix.rowEntries 0, e.1 < exampleOpenMatrix.colCount) ∧
      exampleMatrix.rowEntries 0 = [(2, 1)] ∧
      (exampleOpenMatrix.appendRow (exampleHeap 6) exampleMatrix 0).1.rows.getLast?
        = some [(0, 1), (2, 1)] ∧
      (exampleOpenMatrix.appendRow (exampleHeap 6) exampleMatrix 0).1.rows.getLast?
        ≠ some (exampleMatrix.rowEntries 0) := by
  decide

/-- C2: `appendRowAndNormalize(sourceMatrix, sourceRow, p)` with a modulus
`0 < p < 2^16` and 16-bit source scalars (in particular an odd prime `p` and
scalars in `[1, p)`) closes a row made of the receiver's open-row entries (none
between rows) followed by the appended row, and the appended row has the length
and the column sequence of the source row, is empty when the source row is
empty, and otherwise is the source's first column with scalar 1 followed by
`(c, (modularInverse(lead, p) * s0) mod p)` for every later source entry
`(c, s0)`, in order. -/
theorem appendRowAndNormalize_row (this src : SparseMatrix) (h : Heap) (row p : Nat)
    (hthis : Inv this) (hp : 0 < p) (hp16 : p < scalarSize)
    (hs : ∀ e ∈ src.rowEntries row, e.2 < p) :
    ∃ appended : List Entry,
      (this.appendRowAndNormalize h src row p).1.rows = this.rows ++ [this.pending ++ appended] ∧
      appended.length = (src.rowEntries row).length ∧
      appended.map Prod.fst = (src.rowEntries row).map Prod.fst ∧
      (src.rowEntries row = [] → appended = []) ∧
      ∀ c lead rest, src.rowEntries row = (c, lead) :: rest →
        appended = (c, 1) :: rest.map (fun e => (e.1, modularInverse lead p * e.2 % p)) := by
  refine ⟨normalizedRow p (src.rowEntries row), ?_, ?_, ?_, ?_, ?_⟩
  · exact (hthis.rep.appendRowAndNormalize h src row p hp (le_of_lt hp16)
      (fun e he => lt_trans (hs e he) hp16)).rows_eq
  · cases src.rowEntries row with
    | nil => rfl
    | cons e rest => obtain ⟨c, lead⟩ := e; simp [normalizedRow]
  · cases src.rowEntries row with
    | nil => rfl
    | cons e rest =>
      obtain ⟨c, lead⟩ := e
      simp [normalizedRow, Function.comp_def]
  · intro h0
    rw [h0]
    rfl
  · intro c lead rest h0
    rw [h0]
    rfl

/-- C2, witness: modulus 7 and the two-entry source row `[(1,3), (3,5)]`: the
lead 3 has the inverse 5, the first entry is stored with scalar 1 and the
second with `5 * 5 mod 7 = 4`, so the appended row is `[(1,1), (3,4)]`. -/
theorem appendRowAndNormalize_row_witness :
    exampleDenseMatrix.rowEntries 0 = [(1, 3), (3, 5)] ∧ modularInverse 3 7 = 5 ∧
      (exampleEmpty.appendRowAndNormalize (exampleHeap 6) exampleDenseMatrix 0 7).1.rows =
        [[(1, 1), (3, 4)]] := by
  obtain ⟨appended, hrows, _, _, _, hrest⟩ :=
    appendRowAndNormalize_row exampleEmpty exampleDenseMatrix (exampleHeap 6) 0 7 (by decide)
      (by decide) (by decide) (by decide)
  refine ⟨by decide, by decide, ?_⟩
  rw [hrows, hrest 1 3 [(3, 5)] (by decide)]
  decide

theorem sparsified_succ (v : List Nat) (modulus n : Nat) :
    sparsified v modulus (n + 1) =
      sparsified v modulus n ++
        (if v.getD n 0 % modulus = 0 then [] else [(n, v.getD n 0 % modulus)]) := by
  unfold sparsified
  rw [List.range_succ, List.map_append, List.filter_append]
  congr 1
  simp only [List.map_cons, List.map_nil]
  generalize v.getD n 0 % modulus = x
  by_cases h0 : x = 0 <;> simp [h0]

theorem mod_scalar (x modulus : Nat) (hp : 0 < modulus) (hp16 : modulus ≤ scalarSize) :
    x % modulus % scalarSize = x % modulus :=
  Nat.mod_eq_of_lt (lt_of_lt_of_le (Nat.mod_lt _ hp) hp16)

theorem Rep.appendRowWithModulus_loop {this : SparseMatrix} {rs : List (List Entry)}
    {pend : List Entry} (hm : Rep this rs pend) (h : Heap) (v : List Nat) (modulus : Nat)
    (hp : 0 < modulus) (hp16 : modulus ≤ scalarSize) (n : Nat) :
    Rep ((List.range n).foldl (appendRowWithModulusStep v modulus) (this, h)).1 rs
      (pend ++ sparsified v modulus n) := by
  induction n with
  | zero => simpa [sparsified] using hm
  | succ n ih =>
    rw [List.range_succ, List.foldl_append, sparsified_succ]
    simp only [List.foldl_cons, List.foldl_nil, appendRowWithModulusStep,
      mod_scalar _ modulus hp hp16]
    generalize v.getD n 0 % modulus = x
    by_cases h0 : x = 0
    · simpa [h0] using ih
    · simp only [h0, bne_iff_ne, ne_eq, not_false_eq_true, if_true, if_false]
      have := ih.appendEntry ((List.range n).foldl (appendRowWithModulusStep v modulus) (this, h)).2
        n x
      simpa using this

theorem Rep.appendRowWithModulus {this : SparseMatrix} {rs : List (List Entry)}
    {pend : List Entry} (hm : Rep this rs pend) (h : Heap) (v : List Nat) (modulus : Nat)
    (hp : 0 < modulus) (hp16 : modulus ≤ scalarSize) :
    Rep (this.appendRowWithModulus h v modulus).1
      (rs ++ [pend ++ sparsified v modulus this.colCount]) [] :=
  (hm.appendRowWithModulus_loop h v modulus hp hp16 this.colCount).rowDone

/-- C3: `appendRowWithModulus(denseRow, modulus)` with a dense row of length
`colCount` and a modulus `0 < modulus < 2^16` closes a row made of the
receiver's open-row entries (none between rows) followed by exactly the pairs
`(c, v[c] mod modulus)` for `c = 0 .. colCount-1`, in increasing `c`, restricted
to those `c` with `v[c] mod modulus != 0`. -/
theorem appendRowWithModulus_row (this : SparseMatrix) (h : Heap) (v : List Nat) (modulus : Nat)
    (hthis : Inv this) (hv : v.length = this.colCount) (hp : 0 < modulus)
    (hp16 : modulus < scalarSize) :
    (this.appendRowWithModulus h v modulus).1.rows =
      this.rows ++ [this.pending ++
        ((List.range this.colCount).map (fun c => (c, v.getD c 0 % modulus))).filter
          (fun e => e.2 != 0)] :=
  (hthis.rep.appendRowWithModulus h v modulus hp (le_of_lt hp16)).rows_eq

/-- C3, witness: modulus 7, `colCount = 4` and the dense row `[0, 3, 0, 5]` give
the row `[(1,3), (3,5)]`. -/
theorem appendRowWithModulus_row_witness :
    (exampleEmpty.appendRowWithModulus (exampleHeap 6) [0, 3, 0, 5] 7).1.rows = [[(1, 3), (3, 5)]] :=
  (appendRowWithModulus_row exampleEmpty (exampleHeap 6) [0, 3, 0, 5] 7 (by decide) (by decide)
    (by decide) (by decide)).trans (by decide)

theorem normalizedRow_concat (p : Nat) (c lead : Nat) (rest : List Entry) (e : Entry) :
    normalizedRow p ((c, lead) :: rest ++ [e]) =
      normalizedRow p ((c, lead) :: rest) ++ [(e.1, modularInverse lead p * e.2 % p)] := by
  simp [normalizedRow]

theorem Rep.appendRowWithModulusNormalized_loop {this : SparseMatrix}
    {rs : List (List Entry)} {pend : List Entry} (hm : Rep this rs pend) (h : Heap)
    (v : List Nat) (p : Nat) (hp : 0 < p) (hp16 : p ≤ scalarSize) (n : Nat) :
    Rep ((List.range n).foldl (appendRowWithModulusNormalizedStep v p) ⟨this, h, 1, true⟩).matrix
        rs (pend ++ normalizedRow p (sparsified v p n)) ∧
      match sparsified v p n with
      | [] => ((List.range n).foldl (appendRowWithModulusNormalizedStep v p)
          ⟨this, h, 1, true⟩).first = true
      | (_, lead) :: _ =>
        ((List.range n).foldl (appendRowWithModulusNormalizedStep v p)
          ⟨this, h, 1, true⟩).first = false ∧
        ((List.range n).foldl (appendRowWithModulusNormalizedStep v p)
          ⟨this, h, 1, true⟩).multiply = modularInverse lead p % scalarSize := by
  induction n with
  | zero => simpa [sparsified, normalizedRow] using hm
  | succ n ih =>
    rw [List.range_succ, List.foldl_append, sparsified_succ]
    simp only [List.foldl_cons, List.foldl_nil]
    generalize (List.range n).foldl (appendRowWithModulusNormalizedStep v p) ⟨this, h, 1, true⟩
      = st at ih
    obtain ⟨ihrep, ihst⟩ := ih
    unfold appendRowWithModulusNormalizedStep
    simp only [mod_scalar _ p hp hp16]
    have hx : v.getD n 0 % p < p := Nat.mod_lt _ hp
    generalize v.getD n 0 % p = x at hx
    by_cases h0 : x = 0
    · simp only [h0, beq_self_eq_true, if_true, List.append_nil]
      exact ⟨ihrep, ihst⟩
    · simp only [h0, beq_iff_eq, if_false]
      cases hsp : sparsified v p n with
      | nil =>
        rw [hsp] at ihst ihrep
        simp only at ihst
        simp only [ihst, if_true, List.nil_append, normalizedRow, List.map_nil, and_true]
        have := ihrep.appendEntry st.heap n 1
        simpa [normalizedRow] using this
      | cons e rest =>
        obtain ⟨c, lead⟩ := e
        rw [hsp] at ihst ihrep
        simp only at ihst
        obtain ⟨hfirst, hmul⟩ := ihst
        simp only [hfirst, Bool.false_eq_true, if_false, List.cons_append, and_self, true_and]
        refine ⟨?_, hmul⟩
        have hn := normalize_scalar lead x p hp hp16 (lt_of_lt_of_le hx hp16)
        rw [mod_scalar _ p hp hp16] at hn
        rw [hmul, hn]
        have := ihrep.appendEntry st.heap n (modularInverse lead p * x % p)
        rw [← List.cons_append, normalizedRow_concat]
        simpa using this

theorem Rep.appendRowWithModulusNormalized {this : SparseMatrix} {rs : List (List Entry)}
    {pend : List Entry} (hm : Rep this rs pend) (h : Heap) (v : List Nat) (p : Nat)
    (hp : 0 < p) (hp16 : p ≤ scalarSize) :
    Rep (this.appendRowWithModulusNormalized h v p).1
      (rs ++ [pend ++ normalizedRow p (sparsified v p this.colCount)]) [] :=
  (hm.appendRowWithModulusNormalized_loop h v p hp hp16 this.colCount).1.rowDone

/-- C4: `appendRowWithModulusNormalized(denseRow, p)` with a dense row of length
`colCount` and a modulus `0 < p < 2^16` (in particular an odd prime) closes a
row made of the receiver's open-row entries (none between rows) followed by the
appended row; the appended row has one entry for each column `c` with
`v[c] mod p != 0`, in increasing column order; it is empty when there is no such
column, and otherwise the entry at the first such column `c0` has scalar 1 and
every later entry at column `c` has scalar
`(modularInverse(v[c0] mod p, p) * (v[c] mod p)) mod p`. -/
theorem appendRowWithModulusNormalized_row (this : SparseMatrix) (h : Heap) (v : List Nat)
    (p : Nat) (hthis : Inv this) (hv : v.length = this.colCount) (hp : 0 < p)
    (hp16 : p < scalarSize) :
    ∃ appended : List Entry,
      (this.appendRowWithModulusNormalized h v p).1.rows =
        this.rows ++ [this.pending ++ appended] ∧
      appended.map Prod.fst =
        (List.range this.colCount).filter (fun c => v.getD c 0 % p != 0) ∧
      (sparsified v p this.colCount = [] → appended = []) ∧
      ∀ c0 lead rest, sparsified v p this.colCount = (c0, lead) :: rest →
        lead = v.getD c0 0 % p ∧
        appended = (c0, 1) :: rest.map (fun e =>
          (e.1, modularInverse (v.getD c0 0 % p) p * (v.getD e.1 0 % p) % p)) := by
  have hsnd : ∀ e ∈ sparsified v p this.colCount, e.2 = v.getD e.1 0 % p := by
    intro e he
    simp only [sparsified, List.mem_filter, List.mem_map, List.mem_range] at he
    obtain ⟨⟨c, _, rfl⟩, _⟩ := he
    rfl
  have hfst : (sparsified v p this.colCount).map Prod.fst =
      (List.range this.colCount).filter (fun c => v.getD c 0 % p != 0) := by
    unfold sparsified
    rw [List.filter_map, List.map_map]
    simp [Function.comp_def]
  refine ⟨normalizedRow p (sparsified v p this.colCount), ?_, ?_, ?_, ?_⟩
  · exact (hthis.rep.appendRowWithModulusNormalized h v p hp (le_of_lt hp16)).rows_eq
  · rw [← hfst]
    cases sparsified v p this.colCount with
    | nil => rfl
    | cons e rest =>
      obtain ⟨c, lead⟩ := e
      simp [normalizedRow, Function.comp_def]
  · intro h0
    rw [h0]
    rfl
  · intro c0 lead rest h0
    rw [h0] at hsnd
    have hlead : lead = v.getD c0 0 % p := hsnd (c0, lead) (by simp)
    refine ⟨hlead, ?_⟩
    rw [h0]
    simp only [normalizedRow, List.cons.injEq, true_and]
    apply List.map_congr_left
    intro e he
    rw [hsnd e (by simp [he]), hlead]

/-- C4, witness: `p = 7`, `colCount = 4` and the dense row `[0, 3, 0, 5]` give
the row `[(1,1), (3,4)]`. -/
theorem appendRowWithModulusNormalized_row_witness :
    (exampleEmpty.appendRowWithModulusNormalized (exampleHeap 6) [0, 3, 0, 5] 7).1.rows =
      [[(1, 1), (3, 4)]] := by
  obtain ⟨appended, hrows, _, _, hrest⟩ :=
    appendRowWithModulusNormalized_row exampleEmpty (exampleHeap 6) [0, 3, 0, 5] 7 (by decide)
      (by decide) (by decide) (by decide)
  rw [hrows, (hrest 1 3 [(3, 5)] (by decide)).2]
  decide

theorem sparsified_eq_nil_iff (v : List Nat) (modulus n : Nat) :
    sparsified v modulus n = [] ↔ ∀ c, c < n → v.getD c 0 % modulus = 0 := by
  unfold sparsified
  rw [List.filter_eq_nil_iff]
  simp only [List.mem_map, List.mem_range, bne_iff_ne, ne_eq, not_not]
  constructor
  · intro hall c hc
    exact hall (c, v.getD c 0 % modulus) ⟨c, hc, rfl⟩
  · rintro hall e ⟨c, hc, rfl⟩
    exact hall c hc

theorem appendRowWithModulus_loop_zero (this : SparseMatrix) (h : Heap) (v : List Nat)
    (modulus : Nat) (hp : 0 < modulus) (hp16 : modulus ≤ scalarSize) (n : Nat)
    (hz : ∀ c, c < n → v.getD c 0 % modulus = 0) :
    (List.range n).foldl (appendRowWithModulusStep v modulus) (this, h) = (this, h) := by
  induction n with
  | zero => rfl
  | succ n ih =>
    rw [List.range_succ, List.foldl_append, ih (fun c hc => hz c (by omega))]
    simp only [List.foldl_cons, List.foldl_nil, appendRowWithModulusStep,
      mod_scalar _ modulus hp hp16, hz n (by omega)]
    rfl

theorem Rep.back {m : SparseMatrix} {rs : List (List Entry)} {x pend : List Entry}
    (hm : Rep m (rs ++ [x]) pend) :
    ∃ r, m.mRows.getLast? = some r ∧ (r.empty = true ↔ x = []) := by
  obtain ⟨_, _, _, _, hrows⟩ := hm
  rw [spansFrom_append] at hrows
  simp only [spansFrom] at hrows
  refine ⟨_, by rw [hrows, List.getLast?_concat], ?_⟩
  simp only [Row.empty, beq_iff_eq]
  rw [← List.length_eq_zero]
  omega

/-- C5: on a matrix in a valid state with no pending open-row entries, a dense
row of length `colCount` and a modulus `0 < modulus < 2^16`,
`appendRowWithModulusIfNonZero` returns false exactly when `v[c] mod modulus = 0`
for every column `c`; when it returns false the matrix is the one before the
call (same row count, entry count, colCount and rows); when it returns true the
matrix is the one produced by `appendRowWithModulus(v, modulus)`, with one more
row, the last row being non-empty. -/
theorem appendRowWithModulusIfNonZero_atomic (this : SparseMatrix) (h : Heap) (v : List Nat)
    (modulus : Nat) (hthis : Inv this) (hpend : this.pending = [])
    (hv : v.length = this.colCount) (hp : 0 < modulus) (hp16 : modulus < scalarSize) :
    ((this.appendRowWithModulusIfNonZero h v modulus).2.2 = false ↔
        ∀ c, c < this.colCount → v.getD c 0 % modulus = 0) ∧
      ((this.appendRowWithModulusIfNonZero h v modulus).2.2 = false →
        (this.appendRowWithModulusIfNonZero h v modulus).1 = this ∧
        (this.appendRowWithModulusIfNonZero h v modulus).1.rowCount = this.rowCount ∧
        (this.appendRowWithModulusIfNonZero h v modulus).1.entryCount = this.entryCount ∧
        (this.appendRowWithModulusIfNonZero h v modulus).1.colCount = this.colCount ∧
        (this.appendRowWithModulusIfNonZero h v modulus).1.rows = this.rows) ∧
      ((this.appendRowWithModulusIfNonZero h v modulus).2.2 = true →
        (this.appendRowWithModulusIfNonZero h v modulus).1 =
          (this.appendRowWithModulus h v modulus).1 ∧
        (this.appendRowWithModulusIfNonZero h v modulus).1.rowCount = this.rowCount + 1 ∧
        ∃ last, (this.appendRowWithModulusIfNonZero h v modulus).1.rows.getLast? = some last ∧
          last ≠ []) := by
  have hrep := hthis.rep.appendRowWithModulus h v modulus hp (le_of_lt hp16)
  rw [hpend, List.nil_append] at hrep
  obtain ⟨back, hback, hempty⟩ := hrep.back
  by_cases hz : ∀ c, c < this.colCount → v.getD c 0 % modulus = 0
  · have hnil := (sparsified_eq_nil_iff v modulus this.colCount).2 hz
    have hm1 : this.appendRowWithModulus h v modulus = (this.rowDone, h) := by
      unfold SparseMatrix.appendRowWithModulus
      simp only [appendRowWithModulus_loop_zero this h v modulus hp (le_of_lt hp16) _ hz]
    have hres : this.appendRowWithModulusIfNonZero h v modulus = (this, h, false) := by
      unfold SparseMatrix.appendRowWithModulusIfNonZero
      simp only [hback, hempty.2 hnil, if_true]
      rw [hm1]
      simp [SparseMatrix.rowDone]
    rw [hres]
    exact ⟨⟨fun _ => hz, fun _ => rfl⟩, fun _ => ⟨rfl, rfl, rfl, rfl, rfl⟩,
      fun hb => absurd hb (by simp)⟩
  · have hne : sparsified v modulus this.colCount ≠ [] := fun hnil =>
      hz ((sparsified_eq_nil_iff v modulus this.colCount).1 hnil)
    have hbe : back.empty = false := by
      cases hb : back.empty with
      | false => rfl
      | true => exact absurd (hempty.1 hb) hne
    have hres : this.appendRowWithModulusIfNonZero h v modulus =
        ((this.appendRowWithModulus h v modulus).1, (this.appendRowWithModulus h v modulus).2,
          true) := by
      unfold SparseMatrix.appendRowWithModulusIfNonZero
      simp only [hback, hbe, Bool.false_eq_true, if_false]
    rw [hres]
    simp only [hz, iff_false, Bool.true_eq_false, not_false_eq_true, false_implies, true_and,
      forall_true_left]
    refine ⟨?_, _, ?_, hne⟩
    · have := congrArg List.length hrep.rows_eq
      simpa [SparseMatrix.rows, SparseMatrix.rowCount] using this
    · rw [hrep.rows_eq]
      simp

/-- C5, witness: the all-zero residues `[0, 7, 14, 0]` modulo 7 on the example
matrix: the call returns false and gives the matrix back. -/
theorem appendRowWithModulusIfNonZero_atomic_witness :
    (exampleMatrix.appendRowWithModulusIfNonZero (exampleHeap 6) [0, 7, 14, 0] 7).2.2 = false ∧
      (exampleMatrix.appendRowWithModulusIfNonZero (exampleHeap 6) [0, 7, 14, 0] 7).1 =
        exampleMatrix :=
  have hc := appendRowWithModulusIfNonZero_atomic exampleMatrix (exampleHeap 6) [0, 7, 14, 0] 7
    (by decide) (by decide) (by decide) (by decide) (by decide)
  have hf := hc.1.2 (by decide)
  ⟨hf, (hc.2.1 hf).1⟩

/-! ## Sorting the rows by pivot -/

theorem spansFrom_sizes (ib sb : Int) (rs : List (List Entry)) :
    (spansFrom ib sb rs).map Row.size = rs.map List.length := by
  induction rs generalizing ib sb with
  | nil => rfl
  | cons r rest ih =>
    simp only [spansFrom, List.map_cons, ih, List.cons.injEq, and_true]
    exact toNat_add_sub _ _

theorem Rep.size_eq {m : SparseMatrix} {rs : List (List Entry)} {pend : List Entry}
    (hm : Rep m rs pend) : ∀ r ∈ m.mRows, r.size = (m.spanEntries r).length := by
  have h1 : m.mRows.map Row.size = rs.map List.length := by
    rw [hm.2.2.2.2, spansFrom_sizes]
  have h2 : rs.map List.length = m.mRows.map (fun r => (m.spanEntries r).length) := by
    rw [← hm.rows_eq, SparseMatrix.rows, List.map_map]
    rfl
  exact List.map_inj_left.1 (h1.trans h2)

theorem rowAt_mem (m : SparseMatrix) (row : Nat) (hrow : row < m.rowCount) :
    m.rowAt row ∈ m.mRows := by
  unfold rowAt
  rw [List.getD_eq_getElem _ _ hrow]
  exact List.getElem_mem _

theorem spanEntries_null (m : SparseMatrix) : m.spanEntries ⟨0, 0, 0, 0⟩ = [] := by
  simp [spanEntries, Row.size]

theorem rowEntries_eq_getD (m : SparseMatrix) (row : Nat) :
    m.rowEntries row = m.rows.getD row [] := by
  unfold rowEntries rowAt rows
  rw [← spanEntries_null m, List.getD_map]

theorem pivotPair_eq {m : SparseMatrix} (hm : Inv m) (row : Nat) (hrow : row < m.rowCount) :
    m.pivotPair row = (pivot m.colCount (m.rowEntries row), row) := by
  unfold pivotPair entryCountInRow
  rw [hm.rep.size_eq _ (rowAt_mem m row hrow)]
  show (if (m.rowEntries row).length = 0 then _ else _) = _
  cases m.rowEntries row with
  | nil => rfl
  | cons e rest => simp [pivot]

theorem Rep.sortCopy (this : SparseMatrix) (order : List (Nat × Nat)) {m : SparseMatrix}
    {rs : List (List Entry)} (hm : Rep m rs []) (h : Heap) (n : Nat) :
    Rep ((List.range n).foldl (sortCopyStep this order) (m, h)).1
        (rs ++ (List.range n).map (fun i => this.rowEntries (order.getD i (0, 0)).2)) [] ∧
      ((List.range n).foldl (sortCopyStep this order) (m, h)).1.mColCount = m.mColCount := by
  induction n with
  | zero => simpa using hm
  | succ n ih =>
    rw [List.range_succ, List.foldl_append, List.map_append, ← List.append_assoc]
    simp only [List.foldl_cons, List.foldl_nil, List.map_cons, List.map_nil, sortCopyStep]
    obtain ⟨ihrep, ihcol⟩ := ih
    refine ⟨?_, ?_⟩
    · have := (ihrep.appendEntries
        ((List.range n).foldl (sortCopyStep this order) (m, h)).2
        (this.rowEntries (order.getD n (0, 0)).2)).rowDone
      simpa using this
    · rw [rowDone_colCount, appendEntries_colCount, ihcol]

theorem map_getD_range {α β : Type} (l : List α) (d : α) (f : α → β) :
    (List.range l.length).map (fun i => f (l.getD i d)) = l.map f := by
  apply List.ext_getElem
  · simp
  · intro i h1 h2
    simp only [List.length_map, List.length_range] at h1
    simp [List.getElem?_eq_getElem h1]

theorem rep_new_clear (colCount : Nat) : Rep (SparseMatrix.new.clear colCount) [] [] := by
  refine ⟨rfl, rfl, ?_, rfl, rfl⟩
  simp [SparseMatrix.clear, SparseMatrix.new, RawVector.clear, RawVector.empty]

theorem sortRowsByIncreasingPivots_rep (this : SparseMatrix) (h : Heap) :
    Rep (this.sortRowsByIncreasingPivots h).1
        ((stdSort ((List.range this.rowCount).map this.pivotPair)).map
          (fun p => this.rowEntries p.2)) [] ∧
      (this.sortRowsByIncreasingPivots h).1.mColCount = this.mColCount := by
  unfold SparseMatrix.sortRowsByIncreasingPivots
  have hlen : (stdSort ((List.range this.rowCount).map this.pivotPair)).length = this.rowCount := by
    simp [stdSort, List.length_insertionSort]
  simp only []
  generalize stdSort ((List.range this.rowCount).map this.pivotPair) = order at hlen
  have key := Rep.sortCopy this order (rep_new_clear this.colCount) h this.rowCount
  rw [List.nil_append, ← hlen, map_getD_range order (0, 0) (fun p => this.rowEntries p.2)] at key
  rw [← hlen]
  exact key

theorem sorted_pivots {this : SparseMatrix} (hthis : Inv this) (h : Heap) :
    ((this.sortRowsByIncreasingPivots h).1.rows.map (pivot this.colCount)).Pairwise (· ≤ ·) := by
  rw [(sortRowsByIncreasingPivots_rep this h).1.rows_eq, List.map_map]
  have hsorted : (stdSort ((List.range this.rowCount).map this.pivotPair)).Pairwise pairLE :=
    List.sorted_insertionSort pairLE _
  rw [List.pairwise_map]
  refine hsorted.imp_of_mem ?_
  intro a b ha hb hab
  have hmem : ∀ x ∈ stdSort ((List.range this.rowCount).map this.pivotPair),
      pivot this.colCount (this.rowEntries x.2) = x.1 := by
    intro x hx
    have hx2 := (List.perm_insertionSort pairLE _).mem_iff.1 hx
    simp only [List.mem_map, List.mem_range] at hx2
    obtain ⟨row, hrow, rfl⟩ := hx2
    rw [pivotPair_eq hthis row hrow]
  simp only [Function.comp_apply]
  rw [hmem a ha, hmem b hb]
  unfold pairLE at hab
  omega

/-- C6: for every matrix in a valid state, after `sortRowsByIncreasingPivots`
every adjacent pair of rows `(i, i+1)` has `pivot(row i) <= pivot(row i+1)`,
where the pivot of a non-empty row is the column of its first stored entry and
the pivot of an empty row is `colCount`. -/
theorem sortRowsByIncreasingPivots_sorted (this : SparseMatrix) (h : Heap) (hthis : Inv this)
    (i : Nat) (hi : i + 1 < (this.sortRowsByIncreasingPivots h).1.rowCount) :
    pivot (this.sortRowsByIncreasingPivots h).1.colCount
        ((this.sortRowsByIncreasingPivots h).1.rowEntries i) ≤
      pivot (this.sortRowsByIncreasingPivots h).1.colCount
        ((this.sortRowsByIncreasingPivots h).1.rowEntries (i + 1)) := by
  have hcol : (this.sortRowsByIncreasingPivots h).1.colCount = this.colCount :=
    (sortRowsByIncreasingPivots_rep this h).2
  have hpw := sorted_pivots hthis h
  rw [List.pairwise_iff_getElem] at hpw
  have hlen : (this.sortRowsByIncreasingPivots h).1.rows.length =
      (this.sortRowsByIncreasingPivots h).1.rowCount := by
    simp [SparseMatrix.rows, SparseMatrix.rowCount]
  have key := hpw i (i + 1) (by simp only [List.length_map]; omega)
    (by simp only [List.length_map]; omega) (by omega)
  simp only [List.getElem_map] at key
  rw [hcol, rowEntries_eq_getD, rowEntries_eq_getD, List.getD_eq_getElem _ _ (by omega),
    List.getD_eq_getElem _ _ (by omega)]
  exact key

/-- C6, witness: `colCount = 4` and the rows `R0 = [(2,1)]`, `R1 = []`,
`R2 = [(0,4)]` are reordered to `[R2, R0, R1]`, with pivots 0, 2 and 4. -/
theorem sortRowsByIncreasingPivots_sorted_witness :
    (exampleMatrix.sortRowsByIncreasingPivots (exampleHeap 6)).1.rows = [[(0, 4)], [(2, 1)], []] ∧
      pivot (exampleMatrix.sortRowsByIncreasingPivots (exampleHeap 6)).1.colCount
          ((exampleMatrix.sortRowsByIncreasingPivots (exampleHeap 6)).1.rowEntries 0) ≤
        pivot (exampleMatrix.sortRowsByIncreasingPivots (exampleHeap 6)).1.colCount
          ((exampleMatrix.sortRowsByIncreasingPivots (exampleHeap 6)).1.rowEntries (0 + 1)) :=
  ⟨by decide,
    sortRowsByIncreasingPivots_sorted exampleMatrix (exampleHeap 6) (by decide) 0 (by decide)⟩

/-! ## Column trimming and capacity reservation -/

theorem subColIndex_eq (c k : Nat) (hk : k ≤ c) (hc : c < colIndexSize) :
    subColIndex c k = c - k := by
  unfold subColIndex
  unfold colIndexSize at *
  omega

theorem spanEntries_map_cols (m : SparseMatrix) (f : Nat → Nat) (r : Row) :
    SparseMatrix.spanEntries
        { m with mColIndices := { m.mColIndices with data := m.mColIndices.data.map f } } r =
      (m.spanEntries r).map (fun e => (f e.1, e.2)) := by
  simp only [spanEntries, ← List.map_drop, ← List.map_take, List.zip_map_left]
  rfl

/-- C7: for every matrix and every `k <= colCount` such that every stored column
index is `>= k` (column indices and `colCount` being 32-bit values), after
`trimLeadingZeroColumns(k)` every stored entry's column is its original column
minus `k`, a true subtraction with no wrap-around, `colCount` is the original
`colCount` minus `k`, and the row count, each row's length and every scalar are
unchanged. -/
theorem trimLeadingZeroColumns_effect (m : SparseMatrix) (k : Nat) (hk : k ≤ m.colCount)
    (hcol : m.colCount < colIndexSize) (hty : ∀ c ∈ m.mColIndices.data, c < colIndexSize)
    (hge : ∀ c ∈ m.mColIndices.data, k ≤ c) :
    (m.trimLeadingZeroColumns k).mColIndices.data = m.mColIndices.data.map (fun c => c - k) ∧
      (m.trimLeadingZeroColumns k).mEntries.data = m.mEntries.data ∧
      (m.trimLeadingZeroColumns k).colCount = m.colCount - k ∧
      (m.trimLeadingZeroColumns k).rowCount = m.rowCount ∧
      (∀ row, (m.trimLeadingZeroColumns k).rowEntries row =
        (m.rowEntries row).map (fun e => (e.1 - k, e.2))) ∧
      (∀ row, ((m.trimLeadingZeroColumns k).rowEntries row).length = (m.rowEntries row).length) ∧
      (∀ row, ((m.trimLeadingZeroColumns k).rowEntries row).map Prod.snd =
        (m.rowEntries row).map Prod.snd) := by
  have hdata : m.mColIndices.data.map (fun c => subColIndex c k) =
      m.mColIndices.data.map (fun c => c - k) :=
    List.map_congr_left (fun c hc => subColIndex_eq c k (hge c hc) (hty c hc))
  have hrow : ∀ row, (m.trimLeadingZeroColumns k).rowEntries row =
      (m.rowEntries row).map (fun e => (e.1 - k, e.2)) := by
    intro row
    unfold SparseMatrix.trimLeadingZeroColumns
    rw [hdata]
    exact spanEntries_map_cols m (fun c => c - k) (m.rowAt row)
  refine ⟨hdata, rfl, subColIndex_eq _ _ hk hcol, rfl, hrow, ?_, ?_⟩
  · intro row
    rw [hrow, List.length_map]
  · intro row
    rw [hrow, List.map_map]
    rfl

/-- C7, witness: trimming one column of the matrix with the row `[(1,3), (3,5)]`
and `colCount = 4` gives the row `[(0,3), (2,5)]`. -/
theorem trimLeadingZeroColumns_effect_witness :
    (exampleDenseMatrix.trimLeadingZeroColumns 1).rowEntries 0 = [(0, 3), (2, 5)] :=
  ((trimLeadingZeroColumns_effect exampleDenseMatrix 1 (by decide) (by decide) (by decide)
    (by decide)).2.2.2.2.1 0).trans (by decide)

theorem rowEntries_of_rows_eq {m1 m2 : SparseMatrix} (h : m1.rows = m2.rows) (row : Nat) :
    m1.rowEntries row = m2.rowEntries row := by
  rw [rowEntries_eq_getD, rowEntries_eq_getD, h]

theorem Rep.entryCount_eq {m1 m2 : SparseMatrix} {rs : List (List Entry)} {pend : List Entry}
    (h1 : Rep m1 rs pend) (h2 : Rep m2 rs pend) : m1.entryCount = m2.entryCount := by
  have e1 : m1.stored.length = m2.stored.length := by rw [h1.2.2.2.1, h2.2.2.2.1]
  simp only [stored, List.length_zip, h1.1, h2.1, Nat.min_self] at e1
  exact e1

/-- C8: for every matrix in a valid state and every `n`, after
`reserveEntries(n)` both buffers have the same capacity, which is `>= n`
(unchanged when the old capacity was already `>= n`, exactly `n` otherwise);
the row count, `colCount`, the entry count, the stored entries and every row's
sequence of (column, scalar) pairs are those before the call; and every row
span is moved by the displacement of its buffer, the same at its start and its
end. -/
theorem reserveEntries_preserves (m : SparseMatrix) (h : Heap) (n : Nat) (hm : Inv m) :
    n ≤ (m.reserveEntries h n).1.capacity ∧
      (n ≤ m.capacity → (m.reserveEntries h n).1.capacity = m.capacity) ∧
      (m.capacity < n → (m.reserveEntries h n).1.capacity = n) ∧
      (m.reserveEntries h n).1.mColIndices.capacity =
        (m.reserveEntries h n).1.mEntries.capacity ∧
      (m.reserveEntries h n).1.rowCount = m.rowCount ∧
      (m.reserveEntries h n).1.colCount = m.colCount ∧
      (m.reserveEntries h n).1.entryCount = m.entryCount ∧
      (m.reserveEntries h n).1.stored = m.stored ∧
      (m.reserveEntries h n).1.pending = m.pending ∧
      (∀ row, (m.reserveEntries h n).1.rowEntries row = m.rowEntries row) ∧
      (m.reserveEntries h n).1.mRows = m.mRows.map (fun r =>
        ⟨r.mIndicesBegin + ((m.reserveEntries h n).1.mColIndices.mBegin - m.mColIndices.mBegin),
         r.mIndicesEnd + ((m.reserveEntries h n).1.mColIndices.mBegin - m.mColIndices.mBegin),
         r.mScalarsBegin + ((m.reserveEntries h n).1.mEntries.mBegin - m.mEntries.mBegin),
         r.mScalarsEnd + ((m.reserveEntries h n).1.mEntries.mBegin - m.mEntries.mBegin)⟩) := by
  have hrep := hm.rep.reserveEntries h n
  have hcap := reserveEntries_capacity m h n
  refine ⟨?_, ?_, ?_, hrep.2.1, ?_, reserveEntries_colCount m h n,
    hrep.entryCount_eq hm.rep, ?_, hrep.pending_eq, ?_, ?_⟩
  · show n ≤ (m.reserveEntries h n).1.mEntries.capacity
    rw [hcap]; split <;> omega
  · intro hle
    show (m.reserveEntries h n).1.mEntries.capacity = m.mEntries.capacity
    have : n ≤ m.mEntries.capacity := hle
    rw [hcap]; split <;> omega
  · intro hlt
    show (m.reserveEntries h n).1.mEntries.capacity = n
    have : m.mEntries.capacity < n := hlt
    rw [hcap]; split <;> omega
  · have := congrArg List.length hrep.rows_eq
    simpa [SparseMatrix.rows, SparseMatrix.rowCount] using this
  · rw [hrep.2.2.2.1, hm.rep.2.2.2.1]
  · exact rowEntries_of_rows_eq hrep.rows_eq
  · unfold SparseMatrix.reserveEntries
    split
    · simp
    · rfl

/-- C8, witness: reserving 100000 entries on the example matrix, whose capacity
is 65536, keeps its rows and gives the capacity 100000. -/
theorem reserveEntries_preserves_witness :
    (exampleMatrix.reserveEntries (exampleHeap 6) 100000).1.capacity = 100000 ∧
      (exampleMatrix.reserveEntries (exampleHeap 6) 100000).1.rowEntries 0 = [(2, 1)] :=
  have hc := reserveEntries_preserves exampleMatrix (exampleHeap 6) 100000 (by decide)
  ⟨hc.2.2.1 (by decide), (hc.2.2.2.2.2.2.2.2.2.1 0).trans (by decide)⟩

/-! ## Growth -/

theorem Rep.run {m : SparseMatrix} {rs : List (List Entry)} {pend : List Entry}
    (hm : Rep m rs pend) (h : Heap) (ops : List Op) :
    Rep (SparseMatrix.run m h ops).1 (buildRows rs pend ops).1 (buildRows rs pend ops).2 := by
  unfold SparseMatrix.run
  induction ops generalizing m h rs pend with
  | nil => exact hm
  | cons op rest ih =>
    cases op with
    | appendEntry col scalar =>
      simp only [List.foldl_cons, applyOp, buildRows]
      exact ih (hm.appendEntry h col scalar) _
    | rowDone =>
      simp only [List.foldl_cons, applyOp, buildRows]
      exact ih hm.rowDone _

theorem appendEntry_capacity_of_room (m : SparseMatrix) (h : Heap) (col scalar : Nat)
    (hroom : m.mEntries.data.length < m.mEntries.capacity) :
    (m.appendEntry h col scalar).1.mEntries.capacity = m.mEntries.capacity ∧
      (m.appendEntry h col scalar).1.mEntries.data.length = m.mEntries.data.length + 1 ∧
      (m.appendEntry h col scalar).1.mEntries.mBegin = m.mEntries.mBegin ∧
      (m.appendEntry h col scalar).1.mColIndices.mBegin = m.mColIndices.mBegin := by
  have hfull : m.mEntries.atCapacity = false := by
    simp only [RawVector.atCapacity, beq_eq_false_iff_ne, ne_eq]
    omega
  unfold appendEntry
  simp [hfull, RawVector.rawPushBack]

theorem run_no_growth (m : SparseMatrix) (h : Heap) (ops : List Op)
    (hroom : m.mEntries.data.length + appendCount ops ≤ m.mEntries.capacity) :
    (run m h ops).1.mEntries.capacity = m.mEntries.capacity ∧
      (run m h ops).1.mEntries.mBegin = m.mEntries.mBegin ∧
      (run m h ops).1.mColIndices.mBegin = m.mColIndices.mBegin := by
  unfold run
  induction ops generalizing m h with
  | nil => exact ⟨rfl, rfl, rfl⟩
  | cons op rest ih =>
    cases op with
    | appendEntry col scalar =>
      simp only [appendCount] at hroom
      obtain ⟨hc, hl, hb1, hb2⟩ := appendEntry_capacity_of_room m h col scalar (by omega)
      simp only [List.foldl_cons, applyOp]
      have := ih (m.appendEntry h col scalar).1 (m.appendEntry h col scalar).2 (by omega)
      rw [this.1, this.2.1, this.2.2, hc, hb1, hb2]
      exact ⟨rfl, rfl, rfl⟩
    | rowDone =>
      simp only [appendCount] at hroom
      simp only [List.foldl_cons, applyOp]
      exact ih m.rowDone h hroom

/-- C9: for every `colCount`, every sequence of `appendEntry` / `rowDone`
operations and every `M`, running the sequence on an initially empty matrix
(capacity 0, so that `growEntryCapacity` fires whenever the buffers are full)
yields the same row count, the same per-row sequences of (column, scalar)
pairs and the same open row as running it on a matrix on which
`reserveEntries(M)` was called first; and when `M` is at least the number `N`
of `appendEntry` operations the pre-reserved run never reallocates: its
capacity stays `M` and its buffers stay where `reserveEntries` put them. -/
theorem growth_correctness (colCount M : Nat) (ops : List Op) (h1 h2 h3 : Heap) :
    (run (SparseMatrix.new.clear colCount) h1 ops).1.rowCount =
        (run ((SparseMatrix.new.clear colCount).reserveEntries h2 M).1 h3 ops).1.rowCount ∧
      (run (SparseMatrix.new.clear colCount) h1 ops).1.rows =
        (run ((SparseMatrix.new.clear colCount).reserveEntries h2 M).1 h3 ops).1.rows ∧
      (∀ row, (run (SparseMatrix.new.clear colCount) h1 ops).1.rowEntries row =
        (run ((SparseMatrix.new.clear colCount).reserveEntries h2 M).1 h3 ops).1.rowEntries row) ∧
      (run (SparseMatrix.new.clear colCount) h1 ops).1.pending =
        (run ((SparseMatrix.new.clear colCount).reserveEntries h2 M).1 h3 ops).1.pending ∧
      (appendCount ops ≤ M →
        (run ((SparseMatrix.new.clear colCount).reserveEntries h2 M).1 h3 ops).1.capacity = M ∧
        (run ((SparseMatrix.new.clear colCount).reserveEntries h2 M).1 h3 ops).1.mEntries.mBegin =
          ((SparseMatrix.new.clear colCount).reserveEntries h2 M).1.mEntries.mBegin ∧
        (run ((SparseMatrix.new.clear colCount).reserveEntries h2 M).1 h3 ops).1.mColIndices.mBegin
          = ((SparseMatrix.new.clear colCount).reserveEntries h2 M).1.mColIndices.mBegin) := by
  have ha := (rep_new_clear colCount).run h1 ops
  have hb := ((rep_new_clear colCount).reserveEntries h2 M).run h3 ops
  have hrows : (run (SparseMatrix.new.clear colCount) h1 ops).1.rows =
      (run ((SparseMatrix.new.clear colCount).reserveEntries h2 M).1 h3 ops).1.rows := by
    rw [ha.rows_eq, hb.rows_eq]
  refine ⟨?_, hrows, rowEntries_of_rows_eq hrows, ?_, ?_⟩
  · have := congrArg List.length hrows
    simpa [SparseMatrix.rows, SparseMatrix.rowCount] using this
  · rw [ha.pending_eq, hb.pending_eq]
  · intro hN
    have hcap : ((SparseMatrix.new.clear colCount).reserveEntries h2 M).1.mEntries.capacity = M := by
      rw [reserveEntries_capacity]
      simp [SparseMatrix.clear, SparseMatrix.new, RawVector.clear, RawVector.empty]
    have hlen : ((SparseMatrix.new.clear colCount).reserveEntries h2 M).1.mEntries.data.length
        = 0 := by
      have := ((rep_new_clear colCount).reserveEntries h2 M).entryCount_eq (rep_new_clear colCount)
      simpa [SparseMatrix.entryCount, SparseMatrix.clear, RawVector.clear] using this
    have := run_no_growth ((SparseMatrix.new.clear colCount).reserveEntries h2 M).1 h3 ops
      (by rw [hcap, hlen]; omega)
    exact ⟨by rw [SparseMatrix.capacity, this.1, hcap], this.2.1, this.2.2⟩

/-- C9, witness: three entries in two rows, without reservation and with
`reserveEntries(3)`: the rows are `[(0,1), (2,5)]` and `[(1,4)]` in both runs,
the capacity being 65536 in the first run and 3 in the second. -/
theorem growth_correctness_witness :
    (run (SparseMatrix.new.clear 4) (exampleHeap 6)
        [Op.appendEntry 0 1, Op.appendEntry 2 5, Op.rowDone, Op.appendEntry 1 4, Op.rowDone]).1.rows
      = [[(0, 1), (2, 5)], [(1, 4)]] ∧
    (run (SparseMatrix.new.clear 4) (exampleHeap 6)
        [Op.appendEntry 0 1, Op.appendEntry 2 5, Op.rowDone, Op.appendEntry 1 4, Op.rowDone]).1.capacity
      = 65536 ∧
    (run ((SparseMatrix.new.clear 4).reserveEntries (exampleHeap 6) 3).1 (exampleHeap 8)
        [Op.appendEntry 0 1, Op.appendEntry 2 5, Op.rowDone, Op.appendEntry 1 4, Op.rowDone]).1.rows
      = [[(0, 1), (2, 5)], [(1, 4)]] ∧
    (run ((SparseMatrix.new.clear 4).reserveEntries (exampleHeap 6) 3).1 (exampleHeap 8)
        [Op.appendEntry 0 1, Op.appendEntry 2 5, Op.rowDone, Op.appendEntry 1 4, Op.rowDone]).1.capacity
      = 3 :=
  have hc := growth_correctness 4 3
    [Op.appendEntry 0 1, Op.appendEntry 2 5, Op.rowDone, Op.appendEntry 1 4, Op.rowDone]
    (exampleHeap 6) (exampleHeap 6) (exampleHeap 8)
  ⟨by decide, by decide, hc.2.1.symm.trans (by decide), (hc.2.2.2.2 (by decide)).1⟩

/-! ## The sparsity invariant -/

theorem denseCopied_succ (v : List Nat) (leadCol n : Nat) :
    denseCopied v leadCol (n + 1) =
      denseCopied v leadCol n ++
        (if v.getD (leadCol + n) 0 = 0 then []
          else [(leadCol + n, v.getD (leadCol + n) 0 % scalarSize)]) := by
  unfold denseCopied
  rw [List.range'_concat, List.filter_append, List.map_append, Nat.one_mul]
  congr 1
  by_cases h0 : v[leadCol + n]?.getD 0 = 0 <;> simp [h0]

theorem Rep.appendRowDense_loop {this : SparseMatrix} {rs : List (List Entry)}
    {pend : List Entry} (hm : Rep this rs pend) (h : Heap) (v : List Nat) (leadCol n : Nat) :
    Rep ((List.range' leadCol n).foldl (appendRowDenseStep v) (this, h)).1 rs
      (pend ++ denseCopied v leadCol n) := by
  induction n with
  | zero => simpa [denseCopied] using hm
  | succ n ih =>
    rw [List.range'_concat, List.foldl_append, denseCopied_succ, Nat.one_mul]
    simp only [List.foldl_cons, List.foldl_nil, appendRowDenseStep]
    generalize v.getD (leadCol + n) 0 = x
    by_cases h0 : x = 0
    · simpa [h0] using ih
    · simp only [h0, bne_iff_ne, ne_eq, not_false_eq_true, if_true, if_false]
      have key := ih.appendEntry
        ((List.range' leadCol n).foldl (appendRowDenseStep v) (this, h)).2 (leadCol + n)
        (x % scalarSize)
      simpa using key

theorem Rep.appendRowDense {this : SparseMatrix} {rs : List (List Entry)}
    {pend : List Entry} (hm : Rep this rs pend) (h : Heap) (v : List Nat) (leadCol : Nat) :
    Rep (this.appendRowDense h v leadCol).1
      (rs ++ [pend ++ denseCopied v leadCol (this.colCount - leadCol)]) [] :=
  (hm.appendRowDense_loop h v leadCol (this.colCount - leadCol)).rowDone

theorem Rep.stored_of_appended {this out : SparseMatrix} {rs : List (List Entry)}
    {pend x : List Entry} (hm : Rep this rs pend) (hout : Rep out (rs ++ [pend ++ x]) []) :
    out.stored = this.stored ++ x := by
  rw [hout.2.2.2.1, hm.2.2.2.1]
  simp

theorem NoZero.of_appended {this out : SparseMatrix} {rs : List (List Entry)}
    {pend x : List Entry} (hm : Rep this rs pend) (hout : Rep out (rs ++ [pend ++ x]) [])
    (hnz : NoZero this) (hx : ∀ e ∈ x, e.2 ≠ 0) : NoZero out := by
  intro e he
  rw [hm.stored_of_appended hout, List.mem_append] at he
  rcases he with he | he
  · exact hnz e he
  · exact hx e he

theorem Inv.rowEntries_subset {m : SparseMatrix} (hm : Inv m) (row : Nat) :
    ∀ e ∈ m.rowEntries row, e ∈ m.stored := by
  intro e he
  rw [rowEntries_eq_getD] at he
  rw [hm.rep.2.2.2.1, List.mem_append, List.mem_flatten]
  left
  refine ⟨m.rows.getD row [], ?_, he⟩
  by_cases hrow : row < m.rows.length
  · rw [List.getD_eq_getElem _ _ hrow]
    exact List.getElem_mem _
  · rw [List.getD_eq_default _ _ (by omega)] at he
    simp at he

theorem modularInverse_spec (s p : Nat) (hp : Nat.Prime p) (hs1 : 1 ≤ s) (hsp : s < p) :
    1 ≤ modularInverse s p ∧ modularInverse s p < p ∧ s * modularInverse s p % p = 1 := by
  have hcop : Nat.Coprime s p := (Nat.coprime_of_lt_prime (by omega) hsp hp).symm
  obtain ⟨t, ht⟩ := Nat.exists_mul_emod_eq_one_of_coprime hcop hp.one_lt
  have ht2 : s * (t % p) % p = 1 := by
    rw [Nat.mul_mod, Nat.mod_mod, ← Nat.mul_mod]
    exact ht
  have hpos : 1 ≤ t % p := by
    rcases Nat.eq_zero_or_pos (t % p) with h0 | h0
    · rw [h0] at ht2
      simp at ht2
    · exact h0
  unfold modularInverse
  cases hf : (List.range p).find? (fun t => decide (1 ≤ t ∧ s * t % p = 1)) with
  | none =>
    rw [List.find?_eq_none] at hf
    have := hf (t % p) (List.mem_range.2 (Nat.mod_lt _ hp.pos))
    simp [hpos, ht2] at this
  | some u =>
    have h1 := List.find?_some hf
    have h2 := List.mem_of_find?_eq_some hf
    simp only [decide_eq_true_eq] at h1
    simp only [List.mem_range] at h2
    exact ⟨h1.1, h2, h1.2⟩

theorem normalized_scalar_ne_zero (lead s p : Nat) (hp : Nat.Prime p) (hl1 : 1 ≤ lead)
    (hlp : lead < p) (hs1 : 1 ≤ s) (hsp : s < p) : modularInverse lead p * s % p ≠ 0 := by
  obtain ⟨hi1, hip, _⟩ := modularInverse_spec lead p hp hl1 hlp
  intro h0
  have hdvd : p ∣ modularInverse lead p * s := Nat.dvd_of_mod_eq_zero h0
  rcases (Nat.Prime.dvd_mul hp).1 hdvd with hd | hd
  · have := Nat.le_of_dvd (by omega) hd
    omega
  · have := Nat.le_of_dvd (by omega) hd
    omega

theorem normalizedRow_ne_zero (p : Nat) (hp : Nat.Prime p) (row : List Entry)
    (hrow : ∀ e ∈ row, 1 ≤ e.2 ∧ e.2 < p) : ∀ e ∈ normalizedRow p row, e.2 ≠ 0 := by
  cases row with
  | nil => simp [normalizedRow]
  | cons e0 rest =>
    obtain ⟨c, lead⟩ := e0
    intro e he
    simp only [normalizedRow, List.mem_cons, List.mem_map] at he
    rcases he with rfl | ⟨x, hx, rfl⟩
    · simp
    · have hl := hrow (c, lead) (by simp)
      have hxr := hrow x (by simp [hx])
      exact normalized_scalar_ne_zero lead x.2 p hp hl.1 hl.2 hxr.1 hxr.2

theorem sparsified_range (v : List Nat) (p n : Nat) (hp : 0 < p) :
    ∀ e ∈ sparsified v p n, 1 ≤ e.2 ∧ e.2 < p := by
  intro e he
  simp only [sparsified, List.mem_filter, List.mem_map, List.mem_range, bne_iff_ne, ne_eq] at he
  obtain ⟨⟨c, _, rfl⟩, hne⟩ := he
  exact ⟨Nat.pos_of_ne_zero hne, Nat.mod_lt _ hp⟩

theorem appendRowWithModulusIfNonZero_stored (this : SparseMatrix) (h : Heap) (v : List Nat)
    (modulus : Nat) :
    (this.appendRowWithModulusIfNonZero h v modulus).1.stored =
      (this.appendRowWithModulus h v modulus).1.stored := by
  unfold SparseMatrix.appendRowWithModulusIfNonZero
  simp only []
  split
  · split <;> rfl
  · rfl

/-- C10: if no stored entry of the receiving matrix has scalar 0 (and none of
the source matrix, for `appendRow(matrix,row)`), both matrices being in a valid
state, then for an odd prime `p < 2^16` no stored entry of the receiver has
scalar 0 after `appendRow(matrix,row)`, after `appendRowAndNormalize(matrix,row,p)`
on a source row with scalars in `[1, p)`, after `appendRowWithModulus(v,p)`,
`appendRowWithModulusNormalized(v,p)` or `appendRowWithModulusIfNonZero(v,p)`,
and after `appendRow(w,leadCol)` on dense values fitting the 16-bit scalar; in
particular `(modularInverse(lead,p) * s) mod p` is never 0 for `lead` and `s` in
`[1, p)`. -/
theorem sparsity_preserved (this src : SparseMatrix) (h : Heap) (row : Nat) (v w : List Nat)
    (p leadCol : Nat) (hthis : Inv this) (hsrc : Inv src) (hnz : NoZero this)
    (hsnz : NoZero src) (hp : Nat.Prime p) (hodd : p ≠ 2) (hp16 : p < scalarSize)
    (hv : v.length = this.colCount) (hw : w.length = this.colCount) :
    NoZero (this.appendRow h src row).1 ∧
      ((∀ e ∈ src.rowEntries row, 1 ≤ e.2 ∧ e.2 < p) →
        NoZero (this.appendRowAndNormalize h src row p).1) ∧
      NoZero (this.appendRowWithModulus h v p).1 ∧
      NoZero (this.appendRowWithModulusNormalized h v p).1 ∧
      NoZero (this.appendRowWithModulusIfNonZero h v p).1 ∧
      ((∀ x ∈ w, x < scalarSize) → NoZero (this.appendRowDense h w leadCol).1) ∧
      ∀ lead s, 1 ≤ lead → lead < p → 1 ≤ s → s < p → modularInverse lead p * s % p ≠ 0 := by
  have hpos : 0 < p := hp.pos
  have hle : p ≤ scalarSize := le_of_lt hp16
  have hmod : NoZero (this.appendRowWithModulus h v p).1 := by
    refine NoZero.of_appended hthis.rep (hthis.rep.appendRowWithModulus h v p hpos hle) hnz ?_
    intro e he
    have := (sparsified_range v p this.colCount hpos e he).1
    omega
  refine ⟨?_, ?_, hmod, ?_, ?_, ?_, ?_⟩
  · refine NoZero.of_appended hthis.rep (hthis.rep.appendRow h src row) hnz ?_
    intro e he
    exact hsnz e (hsrc.rowEntries_subset row e he)
  · intro hred
    exact NoZero.of_appended hthis.rep
      (hthis.rep.appendRowAndNormalize h src row p hpos hle
        (fun e he => lt_trans (hred e he).2 hp16))
      hnz (normalizedRow_ne_zero p hp _ hred)
  · exact NoZero.of_appended hthis.rep (hthis.rep.appendRowWithModulusNormalized h v p hpos hle)
      hnz (normalizedRow_ne_zero p hp _ (sparsified_range v p this.colCount hpos))
  · intro e he
    rw [appendRowWithModulusIfNonZero_stored] at he
    exact hmod e he
  · intro hfit
    refine NoZero.of_appended hthis.rep (hthis.rep.appendRowDense h w leadCol) hnz ?_
    intro e he
    simp only [denseCopied, List.mem_map, List.mem_filter, bne_iff_ne, ne_eq] at he
    obtain ⟨c, ⟨_, hne⟩, rfl⟩ := he
    have hlt : w.getD c 0 < scalarSize := by
      by_cases hc : c < w.length
      · rw [List.getD_eq_getElem _ _ hc]
        exact hfit _ (List.getElem_mem _)
      · exact absurd (List.getD_eq_default _ _ (by omega)) hne
    show w.getD c 0 % scalarSize ≠ 0
    rw [Nat.mod_eq_of_lt hlt]
    exact hne
  · intro lead s hl1 hlp hs1 hsp
    exact normalized_scalar_ne_zero lead s p hp hl1 hlp hs1 hsp

/-- C10, witness: the receiver with the row `[(1,3), (3,5)]`, the example matrix
as the source, `p = 7` and the dense rows `[0, 3, 0, 5]` and `[9, 0, 0, 2]`. -/
theorem sparsity_preserved_witness :
    NoZero (exampleDenseMatrix.appendRow (exampleHeap 6) exampleMatrix 2).1 ∧
      NoZero (exampleDenseMatrix.appendRowAndNormalize (exampleHeap 6) exampleMatrix 2 7).1 ∧
      NoZero (exampleDenseMatrix.appendRowWithModulusNormalized (exampleHeap 6) [0, 3, 0, 5] 7).1 ∧
      NoZero (exampleDenseMatrix.appendRowDense (exampleHeap 6) [9, 0, 0, 2] 0).1 :=
  have hc := sparsity_preserved exampleDenseMatrix exampleMatrix (exampleHeap 6) 2 [0, 3, 0, 5]
    [9, 0, 0, 2] 7 0 (by decide) (by decide) (by decide) (by decide) (by norm_num) (by decide)
    (by decide) (by decide) (by decide)
  ⟨hc.1, hc.2.1 (by decide), hc.2.2.2.1, hc.2.2.2.2.2.1 (by decide)⟩

/-! ## Ordering and column bounds of the appended rows -/

theorem normalizedRow_cols (p : Nat) (row : List Entry) :
    (normalizedRow p row).map Prod.fst = row.map Prod.fst := by
  cases row with
  | nil => rfl
  | cons e rest =>
    obtain ⟨c, lead⟩ := e
    simp [normalizedRow, Function.comp_def]

theorem sparsified_cols_sublist (v : List Nat) (modulus n : Nat) :
    ((sparsified v modulus n).map Prod.fst).Sublist (List.range n) := by
  unfold sparsified
  have h1 := (List.filter_sublist (p := fun e : Entry => e.2 != 0)
    ((List.range n).map (fun c => (c, v.getD c 0 % modulus)))).map Prod.fst
  rw [List.map_map] at h1
  have h2 : (Prod.fst ∘ fun c => (c, v.getD c 0 % modulus)) = id := rfl
  rw [h2, List.map_id] at h1
  exact h1

theorem denseCopied_cols_sublist (v : List Nat) (leadCol n : Nat) :
    ((denseCopied v leadCol n).map Prod.fst).Sublist (List.range' leadCol n) := by
  unfold denseCopied
  rw [List.map_map]
  have h2 : (Prod.fst ∘ fun c => (c, v.getD c 0 % scalarSize)) = id := rfl
  rw [h2, List.map_id]
  exact List.filter_sublist _

theorem sparsified_increasing (v : List Nat) (modulus n : Nat) :
    StrictlyIncreasing (sparsified v modulus n) ∧ ∀ e ∈ sparsified v modulus n, e.1 < n := by
  refine ⟨List.Pairwise.sublist (sparsified_cols_sublist v modulus n) (List.pairwise_lt_range n), ?_⟩
  intro e he
  have := (sparsified_cols_sublist v modulus n).subset (List.mem_map_of_mem Prod.fst he)
  exact List.mem_range.1 this

theorem normalizedRow_increasing (p n : Nat) (row : List Entry)
    (h : StrictlyIncreasing row ∧ ∀ e ∈ row, e.1 < n) :
    StrictlyIncreasing (normalizedRow p row) ∧ ∀ e ∈ normalizedRow p row, e.1 < n := by
  unfold StrictlyIncreasing
  rw [normalizedRow_cols]
  refine ⟨h.1, ?_⟩
  intro e he
  have hmem : e.1 ∈ (normalizedRow p row).map Prod.fst := List.mem_map_of_mem Prod.fst he
  rw [normalizedRow_cols, List.mem_map] at hmem
  obtain ⟨e0, he0, heq⟩ := hmem
  rw [← heq]
  exact h.2 e0 he0

theorem denseCopied_increasing (v : List Nat) (leadCol count : Nat) :
    StrictlyIncreasing (denseCopied v leadCol (count - leadCol)) ∧
      ∀ e ∈ denseCopied v leadCol (count - leadCol), e.1 < count := by
  refine ⟨List.Pairwise.sublist (denseCopied_cols_sublist v leadCol _)
    (List.pairwise_lt_range' leadCol _), ?_⟩
  intro e he
  have := (denseCopied_cols_sublist v leadCol _).subset (List.mem_map_of_mem Prod.fst he)
  rw [List.mem_range'_1] at this
  omega

/-- C11: on a receiver in a valid state, with a modulus `0 < p < 2^16` and dense
rows of length `colCount`, the row appended by `appendRowWithModulus`, by
`appendRowWithModulusNormalized`, by `appendRowWithModulusIfNonZero` when it
keeps the row, and by `appendRow(w, leadCol)` has strictly increasing column
indices, all `< colCount`; and the row appended by `appendRow(matrix,row)` or
by `appendRowAndNormalize(matrix,row,p)` has strictly increasing column indices
whenever the source row has. -/
theorem appended_rows_ordered (this src : SparseMatrix) (h : Heap) (row : Nat) (v w : List Nat)
    (p leadCol : Nat) (hthis : Inv this) (hv : v.length = this.colCount)
    (hw : w.length = this.colCount) (hp : 0 < p) (hp16 : p < scalarSize)
    (hsrc : ∀ e ∈ src.rowEntries row, e.2 < scalarSize) :
    (∃ x, AppendedRow this (this.appendRowWithModulus h v p).1 x ∧
        StrictlyIncreasing x ∧ ∀ e ∈ x, e.1 < this.colCount) ∧
      (∃ x, AppendedRow this (this.appendRowWithModulusNormalized h v p).1 x ∧
        StrictlyIncreasing x ∧ ∀ e ∈ x, e.1 < this.colCount) ∧
      ((this.appendRowWithModulusIfNonZero h v p).2.2 = true →
        ∃ x, AppendedRow this (this.appendRowWithModulusIfNonZero h v p).1 x ∧
          StrictlyIncreasing x ∧ ∀ e ∈ x, e.1 < this.colCount) ∧
      (∃ x, AppendedRow this (this.appendRowDense h w leadCol).1 x ∧
        StrictlyIncreasing x ∧ ∀ e ∈ x, e.1 < this.colCount) ∧
      (StrictlyIncreasing (src.rowEntries row) →
        ∃ x, AppendedRow this (this.appendRow h src row).1 x ∧ StrictlyIncreasing x) ∧
      (StrictlyIncreasing (src.rowEntries row) →
        ∃ x, AppendedRow this (this.appendRowAndNormalize h src row p).1 x ∧
          StrictlyIncreasing x) := by
  have hle : p ≤ scalarSize := le_of_lt hp16
  have hmod := (hthis.rep.appendRowWithModulus h v p hp hle).rows_eq
  have hsp := sparsified_increasing v p this.colCount
  refine ⟨⟨_, hmod, hsp⟩, ⟨_, (hthis.rep.appendRowWithModulusNormalized h v p hp hle).rows_eq,
    normalizedRow_increasing p _ _ hsp⟩, ?_,
    ⟨_, (hthis.rep.appendRowDense h w leadCol).rows_eq, denseCopied_increasing w leadCol _⟩,
    fun hinc => ⟨_, (hthis.rep.appendRow h src row).rows_eq, hinc⟩,
    fun hinc => ⟨_, (hthis.rep.appendRowAndNormalize h src row p hp hle hsrc).rows_eq, ?_⟩⟩
  · intro hkept
    refine ⟨_, ?_, hsp⟩
    have hm1 : (this.appendRowWithModulusIfNonZero h v p).1 = (this.appendRowWithModulus h v p).1 := by
      revert hkept
      unfold SparseMatrix.appendRowWithModulusIfNonZero
      simp only []
      split
      · split
        · intro hk; exact absurd hk (by simp)
        · intro _; rfl
      · intro _; rfl
    unfold AppendedRow
    rw [hm1]
    exact hmod
  · unfold StrictlyIncreasing
    rw [normalizedRow_cols]
    exact hinc

/-- C11, witness: on the matrix with the row `[(1,3), (3,5)]`, the dense row
`[9, 0, 0, 2]` appended from column 0 gives a row with strictly increasing
columns below `colCount = 4`. -/
theorem appended_rows_ordered_witness :
    ∃ x, AppendedRow exampleDenseMatrix
        (exampleDenseMatrix.appendRowDense (exampleHeap 6) [9, 0, 0, 2] 0).1 x ∧
      StrictlyIncreasing x ∧ ∀ e ∈ x, e.1 < exampleDenseMatrix.colCount :=
  (appended_rows_ordered exampleDenseMatrix exampleMatrix (exampleHeap 6) 0 [0, 3, 0, 5]
    [9, 0, 0, 2] 7 0 (by decide) (by decide) (by decide) (by decide) (by decide)
    (by decide)).2.2.2.1

/-! ## Column relabelling and conversion to a polynomial -/

/-- C12: for every matrix whose stored column indices are below `colCount` and
every table `colMap` of length `>= colCount`, after `applyColumnMap(colMap)`
every stored entry that had column `c` has column `colMap[c]` (an in-bounds
read); the row count, each row's length, the position of every entry within
its row, every scalar and `colCount` are unchanged. -/
theorem applyColumnMap_effect (m : SparseMatrix) (colMap : List Nat)
    (hlen : m.colCount ≤ colMap.length) (hcols : ∀ c ∈ m.mColIndices.data, c < m.colCount) :
    (∀ c ∈ m.mColIndices.data, c < colMap.length) ∧
      (m.applyColumnMap colMap).mColIndices.data =
        m.mColIndices.data.map (fun c => colMap.getD c 0) ∧
      (m.applyColumnMap colMap).mEntries.data = m.mEntries.data ∧
      (m.applyColumnMap colMap).stored = m.stored.map (fun e => (colMap.getD e.1 0, e.2)) ∧
      (m.applyColumnMap colMap).colCount = m.colCount ∧
      (m.applyColumnMap colMap).rowCount = m.rowCount ∧
      (∀ row, (m.applyColumnMap colMap).rowEntries row =
        (m.rowEntries row).map (fun e => (colMap.getD e.1 0, e.2))) ∧
      (∀ row, ((m.applyColumnMap colMap).rowEntries row).length = (m.rowEntries row).length) ∧
      (∀ row, ((m.applyColumnMap colMap).rowEntries row).map Prod.snd =
        (m.rowEntries row).map Prod.snd) := by
  have hrow : ∀ row, (m.applyColumnMap colMap).rowEntries row =
      (m.rowEntries row).map (fun e => (colMap.getD e.1 0, e.2)) :=
    fun row => spanEntries_map_cols m (fun c => colMap.getD c 0) (m.rowAt row)
  refine ⟨fun c hc => lt_of_lt_of_le (hcols c hc) hlen, rfl, rfl, ?_, rfl, rfl, hrow, ?_, ?_⟩
  · simp only [SparseMatrix.stored, SparseMatrix.applyColumnMap, List.zip_map_left]
    rfl
  · intro row
    rw [hrow, List.length_map]
  · intro row
    rw [hrow, List.map_map]
    rfl

/-- C12, witness: the table `[3, 2, 1, 0]` turns the row `[(1,3), (3,5)]` into
`[(2,3), (0,5)]`, entry by entry, without reordering. -/
theorem applyColumnMap_effect_witness :
    (exampleDenseMatrix.applyColumnMap [3, 2, 1, 0]).rowEntries 0 = [(2, 3), (0, 5)] :=
  ((applyColumnMap_effect exampleDenseMatrix [3, 2, 1, 0] (by decide) (by decide)).2.2.2.2.2.2.1
    0).trans (by decide)

theorem rowToPolynomial_foldl {μ : Type} [Inhabited μ] (colMonomials : List μ)
    (es : List Entry) (acc : Poly μ) :
    es.foldl (fun acc e =>
        if e.2 != 0 then Poly.appendTerm acc e.2 (colMonomials.getD e.1 default) else acc) acc =
      acc ++ (es.filter (fun e => e.2 != 0)).map
        (fun e => (e.2, colMonomials.getD e.1 default)) := by
  induction es generalizing acc with
  | nil => simp
  | cons e rest ih =>
    rw [List.foldl_cons, ih]
    by_cases h0 : e.2 = 0
    · simp [h0]
    · simp [h0, Poly.appendTerm]

/-- C13: for every matrix in a valid state, every valid row index and every
label table of length `colCount`, the polynomial produced by `rowToPolynomial`
does not depend on the previous content of `outPolynomial`, and its term list
is exactly the list of `(scalar, columnLabels[column])` for the row's stored
entries with non-zero scalar, in the row's stored order, with scalars
untransformed; hence for a row without zero scalars the number of terms equals
the row's entry count. -/
theorem rowToPolynomial_terms {μ : Type} [Inhabited μ] (m : SparseMatrix) (row : Nat)
    (colMonomials : List μ) (poly other : Poly μ) (hm : Inv m) (hrow : row < m.rowCount)
    (hlen : colMonomials.length = m.colCount) :
    m.rowToPolynomial row colMonomials poly = m.rowToPolynomial row colMonomials other ∧
      m.rowToPolynomial row colMonomials poly =
        ((m.rowEntries row).filter (fun e => e.2 != 0)).map
          (fun e => (e.2, colMonomials.getD e.1 default)) ∧
      ((∀ e ∈ m.rowEntries row, e.2 ≠ 0) →
        (m.rowToPolynomial row colMonomials poly).length = m.entryCountInRow row ∧
        m.rowToPolynomial row colMonomials poly =
          (m.rowEntries row).map (fun e => (e.2, colMonomials.getD e.1 default))) := by
  have hterms : ∀ q : Poly μ, m.rowToPolynomial row colMonomials q =
      ((m.rowEntries row).filter (fun e => e.2 != 0)).map
        (fun e => (e.2, colMonomials.getD e.1 default)) := by
    intro q
    unfold SparseMatrix.rowToPolynomial
    rw [rowToPolynomial_foldl]
    rfl
  refine ⟨by rw [hterms poly, hterms other], hterms poly, ?_⟩
  intro hnz
  have hfilter : (m.rowEntries row).filter (fun e => e.2 != 0) = m.rowEntries row := by
    rw [List.filter_eq_self]
    intro e he
    simpa using hnz e he
  rw [hterms poly, hfilter, List.length_map]
  refine ⟨?_, rfl⟩
  unfold SparseMatrix.entryCountInRow
  rw [hm.rep.size_eq _ (rowAt_mem m row hrow)]
  rfl

/-- C13, witness: row 0 of the matrix with the row `[(1,3), (3,5)]` and the
labels `a, b, c, d` give the terms `3·b + 5·d`, whatever `outPolynomial` held. -/
theorem rowToPolynomial_terms_witness :
    exampleDenseMatrix.rowToPolynomial 0 ['a', 'b', 'c', 'd'] [(9, 'z')] = [(3, 'b'), (5, 'd')] :=
  ((rowToPolynomial_terms exampleDenseMatrix 0 ['a', 'b', 'c', 'd'] [(9, 'z')] [] (by decide)
    (by decide) (by decide)).2.1).trans (by decide)

/-! ## Frame of the row transfer operations -/

theorem Grows.refl (m : SparseMatrix) : Grows m m :=
  ⟨le_refl _, rfl, [], fun rs pend hm => by simpa using hm⟩

theorem Grows.trans {a b c : SparseMatrix} (hab : Grows a b) (hbc : Grows b c) : Grows a c := by
  obtain ⟨h1, h2, x, hx⟩ := hab
  obtain ⟨h3, h4, y, hy⟩ := hbc
  refine ⟨le_trans h1 h3, h4.trans h2, x ++ y, ?_⟩
  intro rs pend hm
  have := hy rs (pend ++ x) (hx rs pend hm)
  simpa using this

theorem reserveEntries_capacity_le (m : SparseMatrix) (h : Heap) (count : Nat) :
    m.capacity ≤ (m.reserveEntries h count).1.capacity := by
  unfold capacity
  rw [reserveEntries_capacity]
  split <;> omega

theorem growEntryCapacity_capacity_le (m : SparseMatrix) (h : Heap) :
    m.capacity ≤ (m.growEntryCapacity h).1.capacity :=
  reserveEntries_capacity_le m h _

theorem appendEntry_capacity_le (m : SparseMatrix) (h : Heap) (col scalar : Nat) :
    m.capacity ≤ (m.appendEntry h col scalar).1.capacity := by
  unfold appendEntry
  by_cases hfull : m.mEntries.atCapacity = true
  · simp only [hfull, if_true]
    exact growEntryCapacity_capacity_le m h
  · simp only [hfull, Bool.false_eq_true, if_false]
    exact le_refl _

theorem grows_appendEntry (m : SparseMatrix) (h : Heap) (col scalar : Nat) :
    Grows m (m.appendEntry h col scalar).1 :=
  ⟨appendEntry_capacity_le m h col scalar, appendEntry_colCount m h col scalar,
    [(col, scalar)], fun _ _ hm => hm.appendEntry h col scalar⟩

theorem grows_appendEntries (m : SparseMatrix) (h : Heap) (es : List Entry) :
    Grows m (m.appendEntries h es).1 := by
  induction es generalizing m h with
  | nil => exact Grows.refl m
  | cons e rest ih =>
    simp only [SparseMatrix.appendEntries]
    exact (grows_appendEntry m h e.1 e.2).trans (ih _ _)

theorem grows_appendRowWithModulus_loop (this : SparseMatrix) (h : Heap) (v : List Nat)
    (modulus n : Nat) :
    Grows this ((List.range n).foldl (appendRowWithModulusStep v modulus) (this, h)).1 := by
  induction n with
  | zero => exact Grows.refl this
  | succ n ih =>
    rw [List.range_succ, List.foldl_append]
    simp only [List.foldl_cons, List.foldl_nil, appendRowWithModulusStep]
    split
    · exact ih.trans (grows_appendEntry _ _ _ _)
    · exact ih

theorem grows_appendRowDense_loop (this : SparseMatrix) (h : Heap) (v : List Nat)
    (leadCol n : Nat) :
    Grows this ((List.range' leadCol n).foldl (appendRowDenseStep v) (this, h)).1 := by
  induction n with
  | zero => exact Grows.refl this
  | succ n ih =>
    rw [List.range'_concat, List.foldl_append]
    simp only [List.foldl_cons, List.foldl_nil, appendRowDenseStep]
    split
    · exact ih.trans (grows_appendEntry _ _ _ _)
    · exact ih

theorem grows_appendRowWithModulusNormalized_loop (this : SparseMatrix) (h : Heap)
    (v : List Nat) (modulus n : Nat) :
    Grows this ((List.range n).foldl (appendRowWithModulusNormalizedStep v modulus)
      ⟨this, h, 1, true⟩).matrix := by
  induction n with
  | zero => exact Grows.refl this
  | succ n ih =>
    rw [List.range_succ, List.foldl_append]
    simp only [List.foldl_cons, List.foldl_nil, appendRowWithModulusNormalizedStep]
    split
    · exact ih
    · split
      · exact ih.trans (grows_appendEntry _ _ _ _)
      · exact ih.trans (grows_appendEntry _ _ _ _)

theorem appendRow_grows (this : SparseMatrix) (h : Heap) (src : SparseMatrix) (row : Nat) :
    ∃ mid, Grows this mid ∧ (this.appendRow h src row).1 = mid.rowDone :=
  ⟨_, grows_appendEntries this h (src.rowEntries row), rfl⟩

theorem appendRowAndNormalize_grows (this : SparseMatrix) (h : Heap) (src : SparseMatrix)
    (row p : Nat) :
    ∃ mid, Grows this mid ∧ (this.appendRowAndNormalize h src row p).1 = mid.rowDone := by
  unfold SparseMatrix.appendRowAndNormalize
  match src.rowEntries row with
  | [] => exact ⟨this, Grows.refl this, rfl⟩
  | [(c, lead)] => exact ⟨_, grows_appendEntry this h c 1, rfl⟩
  | (c, lead) :: e :: rest =>
    exact ⟨_, (grows_appendEntry this h c 1).trans (grows_appendEntries _ _ _), rfl⟩

theorem appendRowWithModulus_grows (this : SparseMatrix) (h : Heap) (v : List Nat) (p : Nat) :
    ∃ mid, Grows this mid ∧ (this.appendRowWithModulus h v p).1 = mid.rowDone :=
  ⟨_, grows_appendRowWithModulus_loop this h v p this.colCount, rfl⟩

theorem appendRowWithModulusNormalized_grows (this : SparseMatrix) (h : Heap) (v : List Nat)
    (p : Nat) :
    ∃ mid, Grows this mid ∧ (this.appendRowWithModulusNormalized h v p).1 = mid.rowDone :=
  ⟨_, grows_appendRowWithModulusNormalized_loop this h v p this.colCount, rfl⟩

theorem appendRowDense_grows (this : SparseMatrix) (h : Heap) (v : List Nat) (leadCol : Nat) :
    ∃ mid, Grows this mid ∧ (this.appendRowDense h v leadCol).1 = mid.rowDone :=
  ⟨_, grows_appendRowDense_loop this h v leadCol _, rfl⟩

theorem rows_length (m : SparseMatrix) : m.rows.length = m.rowCount := by
  simp [SparseMatrix.rows, SparseMatrix.rowCount]

theorem oneRowAppended_of_grows {this mid out : SparseMatrix} (hthis : Inv this)
    (hg : Grows this mid) (hout : out = mid.rowDone) : OneRowAppended this out := by
  obtain ⟨_, hcol, x, hx⟩ := hg
  have hrep := (hx _ _ hthis.rep).rowDone
  rw [← hout] at hrep
  have hrows := hrep.rows_eq
  refine ⟨?_, ?_, ?_⟩
  · have := congrArg List.length hrows
    rw [rows_length, List.length_append, rows_length] at this
    simpa using this
  · rw [hout]
    exact hcol
  · intro i hi
    rw [rowEntries_eq_getD, rowEntries_eq_getD, hrows]
    have hi2 : i < this.rows.length := by rw [rows_length]; exact hi
    rw [List.getD_eq_getElem _ _ hi2, List.getD_eq_getElem _ _ (by
      rw [List.length_append]; omega), List.getElem_append_left hi2]

/-- C14: for every receiving matrix in a valid state with no pending open-row
entries and a modulus `0 < p < 2^16`, after `appendRow(matrix,row)`,
`appendRowAndNormalize(matrix,row,p)`, `appendRowWithModulus(v,p)`,
`appendRowWithModulusNormalized(v,p)` or `appendRow(w,leadCol)` the row count
is the old row count plus one, `colCount` is unchanged, and for every `i` below
the old row count row `i` has the same sequence of (column, scalar) pairs as
before, whatever number of capacity growths the call triggers.  The source
matrix is a read-only argument of the operations, which return only the
receiver. -/
theorem transfer_appends_one_row (this src : SparseMatrix) (h : Heap) (row : Nat)
    (v w : List Nat) (p leadCol : Nat) (hthis : Inv this) (hpend : this.pending = [])
    (hp : 0 < p) (hp16 : p < scalarSize) :
    OneRowAppended this (this.appendRow h src row).1 ∧
      OneRowAppended this (this.appendRowAndNormalize h src row p).1 ∧
      OneRowAppended this (this.appendRowWithModulus h v p).1 ∧
      OneRowAppended this (this.appendRowWithModulusNormalized h v p).1 ∧
      OneRowAppended this (this.appendRowDense h w leadCol).1 := by
  obtain ⟨m1, hg1, he1⟩ := appendRow_grows this h src row
  obtain ⟨m2, hg2, he2⟩ := appendRowAndNormalize_grows this h src row p
  obtain ⟨m3, hg3, he3⟩ := appendRowWithModulus_grows this h v p
  obtain ⟨m4, hg4, he4⟩ := appendRowWithModulusNormalized_grows this h v p
  obtain ⟨m5, hg5, he5⟩ := appendRowDense_grows this h w leadCol
  exact ⟨oneRowAppended_of_grows hthis hg1 he1, oneRowAppended_of_grows hthis hg2 he2,
    oneRowAppended_of_grows hthis hg3 he3, oneRowAppended_of_grows hthis hg4 he4,
    oneRowAppended_of_grows hthis hg5 he5⟩

/-- C14, witness: the receiver with the row `[(0,1)]` in full buffers of
capacity 1 receives the row `[(1,3), (3,5)]`: the capacity grows twice, to 2
and to 4, and the rows are `[(0,1)]` and `[(1,3), (3,5)]`. -/
theorem transfer_appends_one_row_witness :
    OneRowAppended exampleFullMatrix
        (exampleFullMatrix.appendRow (exampleHeap 18) exampleDenseMatrix 0).1 ∧
      exampleFullMatrix.capacity = 1 ∧
      (exampleFullMatrix.appendRow (exampleHeap 18) exampleDenseMatrix 0).1.capacity = 4 ∧
      (exampleFullMatrix.appendRow (exampleHeap 18) exampleDenseMatrix 0).1.rows =
        [[(0, 1)], [(1, 3), (3, 5)]] :=
  ⟨(transfer_appends_one_row exampleFullMatrix exampleDenseMatrix (exampleHeap 18) 0
      [0, 3, 0, 5] [9, 0, 0, 2] 7 0 (by decide) (by decide) (by decide) (by decide)).1,
    by decide, by decide, by decide⟩

/-! ## Copying a dense row without reduction -/

theorem getD_le_of_forall (v : List Nat) (b : Nat) (hfit : ∀ x ∈ v, x ≤ b) (c : Nat) :
    v.getD c 0 ≤ b := by
  by_cases hc : c < v.length
  · rw [List.getD_eq_getElem _ _ hc]
    exact hfit _ (List.getElem_mem _)
  · rw [List.getD_eq_default _ _ (by omega)]
    exact Nat.zero_le _

theorem denseCopied_of_fit (v : List Nat) (leadCol n : Nat) (hfit : ∀ x ∈ v, x ≤ 65535) :
    denseCopied v leadCol n =
      ((List.range' leadCol n).map (fun c => (c, v.getD c 0))).filter (fun e => e.2 != 0) := by
  unfold denseCopied
  rw [List.filter_map]
  apply List.map_congr_left
  intro c _
  have := getD_le_of_forall v 65535 hfit c
  rw [Nat.mod_eq_of_lt (by unfold scalarSize; omega)]

theorem sparse_from_lead (v : List Nat) (leadCol count : Nat) (hlead : leadCol ≤ count)
    (hzero : ∀ c, c < leadCol → v.getD c 0 = 0) :
    ((List.range' leadCol (count - leadCol)).map (fun c => (c, v.getD c 0))).filter
        (fun e => e.2 != 0) =
      ((List.range count).map (fun c => (c, v.getD c 0))).filter (fun e => e.2 != 0) := by
  have hsplit : List.range count = List.range' 0 leadCol ++ List.range' leadCol (count - leadCol) := by
    rw [List.range_eq_range']
    have := List.range'_append_1 0 leadCol (count - leadCol)
    rw [Nat.zero_add] at this
    rw [this]
    congr 1
    omega
  rw [hsplit, List.map_append, List.filter_append]
  have hnil : ((List.range' 0 leadCol).map (fun c => (c, v.getD c 0))).filter
      (fun e => e.2 != 0) = [] := by
    rw [List.filter_eq_nil_iff]
    intro e he
    rw [List.mem_map] at he
    obtain ⟨c, hc, rfl⟩ := he
    rw [List.mem_range'_1] at hc
    have := hzero c (by omega)
    simp only [bne_iff_ne, ne_eq, not_not]
    exact this
  rw [hnil, List.nil_append]

/-- C15 (amended): for every receiver in a valid state, every dense row `v` of
length `colCount` in which every value fits the 16-bit scalar width
(`v[c] <= 65535`) and every `leadCol <= colCount`, the row appended by
`appendRow(v, leadCol)` is exactly the list of pairs `(c, v[c])` for
`c = leadCol .. colCount-1`, in increasing `c`, restricted to `v[c] != 0`; the
operation's checks pass exactly when every scanned value is below 65535
(`v[c] < 65535` for `leadCol <= c < colCount`), the bound asserted on line 150;
and when every `v[c]` with `c < leadCol` is 0 the appended row equals the
sparsification of the whole dense row. -/
theorem appendRowDense_row (this : SparseMatrix) (h : Heap) (v : List Nat) (leadCol : Nat)
    (hthis : Inv this) (hv : v.length = this.colCount) (hfit : ∀ x ∈ v, x ≤ 65535)
    (hlead : leadCol ≤ this.colCount) :
    AppendedRow this (this.appendRowDense h v leadCol).1
        (((List.range' leadCol (this.colCount - leadCol)).map (fun c => (c, v.getD c 0))).filter
          (fun e => e.2 != 0)) ∧
      (appendRowDenseChecks this v leadCol ↔
        ∀ c, leadCol ≤ c → c < this.colCount → v.getD c 0 < 65535) ∧
      ((∀ c, c < leadCol → v.getD c 0 = 0) →
        ((List.range' leadCol (this.colCount - leadCol)).map (fun c => (c, v.getD c 0))).filter
            (fun e => e.2 != 0) =
          ((List.range this.colCount).map (fun c => (c, v.getD c 0))).filter
            (fun e => e.2 != 0)) := by
  refine ⟨?_, ?_, sparse_from_lead v leadCol this.colCount hlead⟩
  · unfold AppendedRow
    rw [← denseCopied_of_fit v leadCol _ hfit]
    exact (hthis.rep.appendRowDense h v leadCol).rows_eq
  · unfold appendRowDenseChecks appendEntryRequires
    simp only [Nat.sub_self, List.range'_zero, List.not_mem_nil, false_implies, implies_true,
      true_and, List.mem_range'_1, hv]
    constructor
    · rintro ⟨hbound, _⟩ c hc1 hc2
      have := hbound c ⟨hc1, by omega⟩
      unfold scalarSize at this
      omega
    · intro hbound
      refine ⟨?_, ?_⟩
      · intro c hc
        have := hbound c hc.1 (by omega)
        unfold scalarSize
        omega
      · intro c hc hne
        refine ⟨by omega, ?_⟩
        have := getD_le_of_forall v 65535 hfit c
        rw [Nat.mod_eq_of_lt (by unfold scalarSize; omega)]
        exact hne

/-- C15, witness: `colCount = 4`, the dense row `[9, 0, 0, 2]` and `leadCol = 0`:
the checks pass and the appended row is `[(0,9), (3,2)]`. -/
theorem appendRowDense_row_witness :
    appendRowDenseChecks exampleEmpty [9, 0, 0, 2] 0 ∧
      (exampleEmpty.appendRowDense (exampleHeap 6) [9, 0, 0, 2] 0).1.rows = [[(0, 9), (3, 2)]] :=
  have hc := appendRowDense_row exampleEmpty (exampleHeap 6) [9, 0, 0, 2] 0 (by decide)
    (by decide) (by decide) (by decide)
  ⟨hc.2.1.2 (by decide), hc.1.trans (by decide)⟩

/-- C15, counterexample: `colCount = 1`, the dense row `[65535]` and
`leadCol = 0`: the value fits the 16-bit scalar and the appended row is
`[(0,65535)]`, but the assertion of line 150, `v[col] < 65535`, fails. -/
theorem appendRowDense_row_counterexample :
    Inv exampleColumn ∧ [65535].length = exampleColumn.colCount ∧
      (∀ x ∈ [65535], x ≤ 65535) ∧ 0 ≤ exampleColumn.colCount ∧
      (exampleColumn.appendRowDense (exampleHeap 6) [65535] 0).1.rows = [[(0, 65535)]] ∧
      ¬ appendRowDenseChecks exampleColumn [65535] 0 := by
  decide

/-! ## Capacity -/

theorem Rep.balanced {m : SparseMatrix} {rs : List (List Entry)} {pend : List Entry}
    (hm : Rep m rs pend) : Balanced m := ⟨hm.1, hm.2.1⟩

theorem capacityKept_of_grows {this mid : SparseMatrix} (hthis : Inv this)
    (hg : Grows this mid) : CapacityKept this mid ∧ CapacityKept this mid.rowDone := by
  obtain ⟨hcap, _, x, hx⟩ := hg
  have hrep := hx _ _ hthis.rep
  exact ⟨⟨hcap, hrep.balanced⟩, ⟨hcap, hrep.rowDone.balanced⟩⟩

theorem appendRowWithModulusIfNonZero_buffers (this : SparseMatrix) (h : Heap) (v : List Nat)
    (modulus : Nat) :
    (this.appendRowWithModulusIfNonZero h v modulus).1.mEntries =
        (this.appendRowWithModulus h v modulus).1.mEntries ∧
      (this.appendRowWithModulusIfNonZero h v modulus).1.mColIndices =
        (this.appendRowWithModulus h v modulus).1.mColIndices := by
  unfold SparseMatrix.appendRowWithModulusIfNonZero
  simp only []
  split
  · split <;> exact ⟨rfl, rfl⟩
  · exact ⟨rfl, rfl⟩

/-- C16 (amended): for every matrix in a valid state and every single operation
other than `sortRowsByIncreasingPivots` (`reserveEntries`, `growEntryCapacity`,
`appendEntry`, `rowDone`, the six append variants, `clear`, `applyColumnMap`,
`trimLeadingZeroColumns`) the shared entry capacity after the operation is
`>=` the capacity before it, and the two buffers have equal size and equal
capacity afterwards; after `sortRowsByIncreasingPivots` the two buffers have
equal size and equal capacity. -/
theorem capacity_never_shrinks (this src : SparseMatrix) (h : Heap) (row : Nat)
    (v w colMap : List Nat) (p leadCol n col scalar newColCount k : Nat) (hthis : Inv this) :
    CapacityKept this (this.reserveEntries h n).1 ∧
      CapacityKept this (this.growEntryCapacity h).1 ∧
      CapacityKept this (this.appendEntry h col scalar).1 ∧
      CapacityKept this this.rowDone ∧
      CapacityKept this (this.appendRow h src row).1 ∧
      CapacityKept this (this.appendRowAndNormalize h src row p).1 ∧
      CapacityKept this (this.appendRowWithModulus h v p).1 ∧
      CapacityKept this (this.appendRowWithModulusNormalized h v p).1 ∧
      CapacityKept this (this.appendRowWithModulusIfNonZero h v p).1 ∧
      CapacityKept this (this.appendRowDense h w leadCol).1 ∧
      CapacityKept this (this.clear newColCount) ∧
      CapacityKept this (this.applyColumnMap colMap) ∧
      CapacityKept this (this.trimLeadingZeroColumns k) ∧
      Balanced (this.sortRowsByIncreasingPivots h).1 := by
  obtain ⟨m1, hg1, he1⟩ := appendRow_grows this h src row
  obtain ⟨m2, hg2, he2⟩ := appendRowAndNormalize_grows this h src row p
  obtain ⟨m3, hg3, he3⟩ := appendRowWithModulus_grows this h v p
  obtain ⟨m4, hg4, he4⟩ := appendRowWithModulusNormalized_grows this h v p
  obtain ⟨m5, hg5, he5⟩ := appendRowDense_grows this h w leadCol
  have hbal : Balanced this := hthis.rep.balanced
  have hmod : CapacityKept this (this.appendRowWithModulus h v p).1 := by
    rw [he3]; exact (capacityKept_of_grows hthis hg3).2
  refine ⟨⟨reserveEntries_capacity_le this h n, (hthis.rep.reserveEntries h n).balanced⟩,
    ⟨growEntryCapacity_capacity_le this h, (hthis.rep.growEntryCapacity h).balanced⟩,
    (capacityKept_of_grows hthis (grows_appendEntry this h col scalar)).1,
    (capacityKept_of_grows hthis (Grows.refl this)).2, ?_, ?_, hmod, ?_, ?_, ?_,
    ⟨le_refl _, rfl, hbal.2⟩, ⟨le_refl _, ?_, hbal.2⟩, ⟨le_refl _, ?_, hbal.2⟩,
    (sortRowsByIncreasingPivots_rep this h).1.balanced⟩
  · rw [he1]; exact (capacityKept_of_grows hthis hg1).2
  · rw [he2]; exact (capacityKept_of_grows hthis hg2).2
  · rw [he4]; exact (capacityKept_of_grows hthis hg4).2
  · obtain ⟨hb1, hb2⟩ := appendRowWithModulusIfNonZero_buffers this h v p
    unfold CapacityKept Balanced SparseMatrix.capacity at hmod ⊢
    rw [hb1, hb2]
    exact hmod
  · rw [he5]; exact (capacityKept_of_grows hthis hg5).2
  · show (this.mColIndices.data.map _).length = this.mEntries.data.length
    rw [List.length_map]; exact hbal.1
  · show (this.mColIndices.data.map _).length = this.mEntries.data.length
    rw [List.length_map]; exact hbal.1

/-- C16, witness: on the full receiver of capacity 1, `appendRow` grows the
capacity to 4 and keeps the buffers index-parallel. -/
theorem capacity_never_shrinks_witness :
    CapacityKept exampleFullMatrix
        (exampleFullMatrix.appendRow (exampleHeap 18) exampleDenseMatrix 0).1 ∧
      (exampleFullMatrix.appendRow (exampleHeap 18) exampleDenseMatrix 0).1.capacity = 4 :=
  ⟨(capacity_never_shrinks exampleFullMatrix exampleDenseMatrix (exampleHeap 18) 0 [0, 3, 0, 5]
      [9, 0, 0, 2] [3, 2, 1, 0] 7 0 8 1 2 4 0 (by decide)).2.2.2.2.1, by decide⟩

/-- C16, counterexample: the matrix with the rows `[(2,1)]`, `[]`, `[(0,4)]` in
buffers of capacity 100000 (after `reserveEntries(100000)`) is rebuilt by
`sortRowsByIncreasingPivots` into a fresh matrix whose buffers grew from empty:
the capacity after the operation is 65536, below the capacity before it. -/
theorem capacity_never_shrinks_counterexample :
    Inv exampleReservedMatrix ∧ exampleReservedMatrix.capacity = 100000 ∧
      (exampleReservedMatrix.sortRowsByIncreasingPivots (exampleHeap 18)).1.capacity = 65536 ∧
      ¬ CapacityKept exampleReservedMatrix
        (exampleReservedMatrix.sortRowsByIncreasingPivots (exampleHeap 18)).1 := by
  decide

/-- The growth policy on every valid state in which a matrix without entries
has capacity at most 65536; full buffers are such a state. -/
theorem growth_policy_of_bound (m : SparseMatrix) (h : Heap) (hm : Inv m)
    (hcap : m.entryCount = 0 → m.capacity ≤ 65536) :
    (m.entryCount = 0 → (m.growEntryCapacity h).1.capacity = 65536) ∧
      (m.entryCount ≠ 0 → (m.growEntryCapacity h).1.capacity = 2 * m.capacity) ∧
      (m.growEntryCapacity h).1.mColIndices.capacity =
        (m.growEntryCapacity h).1.mEntries.capacity ∧
      growEntryCapacityChecks m h ∧
      (m.entryCount = m.capacity → m.capacity < (m.growEntryCapacity h).1.capacity) ∧
      (m.growEntryCapacity h).1.stored = m.stored ∧
      (m.growEntryCapacity h).1.rows = m.rows ∧
      (m.growEntryCapacity h).1.pending = m.pending ∧
      (m.growEntryCapacity h).1.rowCount = m.rowCount ∧
      (m.growEntryCapacity h).1.colCount = m.colCount := by
  have hrep := hm.rep.growEntryCapacity h
  have hlen := hm.rep.2.2.1
  have hnew : (m.growEntryCapacity h).1.mEntries.capacity =
      (if m.mEntries.data.isEmpty then 65536 else m.mEntries.capacity * 2) := by
    unfold SparseMatrix.growEntryCapacity
    rw [reserveEntries_capacity]
    cases hdata : m.mEntries.data with
    | nil =>
      have := hcap (by simp [SparseMatrix.entryCount, hdata])
      simp only [SparseMatrix.capacity] at this
      simp only [List.isEmpty_nil, if_true]
      split <;> omega
    | cons x xs =>
      simp only [List.isEmpty_cons, Bool.false_eq_true, if_false]
      split <;> omega
  have hempty : m.entryCount = 0 ↔ m.mEntries.data.isEmpty = true := by
    simp [SparseMatrix.entryCount, List.isEmpty_iff]
  refine ⟨?_, ?_, hrep.2.1, ⟨hm.rep.1, hm.rep.2.1, hrep.1, hrep.2.1.trans hnew, hnew⟩, ?_,
    ?_, hrep.rows_eq, hrep.pending_eq, ?_, growEntryCapacity_colCount m h⟩
  · intro h0
    show (m.growEntryCapacity h).1.mEntries.capacity = 65536
    rw [hnew, if_pos (hempty.1 h0)]
  · intro h0
    show (m.growEntryCapacity h).1.mEntries.capacity = 2 * m.mEntries.capacity
    rw [hnew, if_neg (fun he => h0 (hempty.2 he))]
    omega
  · intro hfull
    show m.mEntries.capacity < (m.growEntryCapacity h).1.mEntries.capacity
    rw [hnew]
    simp only [SparseMatrix.entryCount, SparseMatrix.capacity] at hfull
    cases hdata : m.mEntries.data with
    | nil =>
      rw [hdata] at hfull
      simp only [List.length_nil] at hfull
      simp only [List.isEmpty_nil, if_true]
      omega
    | cons x xs =>
      rw [hdata] at hfull
      simp only [List.length_cons] at hfull
      simp only [List.isEmpty_cons, Bool.false_eq_true, if_false]
      omega
  · rw [hrep.2.2.2.1, hm.rep.2.2.2.1]
  · have := congrArg List.length hrep.rows_eq
    rw [rows_length, rows_length] at this
    exact this

theorem full_empty_bound (m : SparseMatrix) (hfull : m.entryCount = m.capacity) :
    m.entryCount = 0 → m.capacity ≤ 65536 := by
  intro h0
  rw [← hfull, h0]
  exact Nat.zero_le _

/-- C17: for every matrix in a valid state that `growEntryCapacity` receives,
that is with full buffers (size equal to capacity, the condition under which
`appendEntry` calls it), after `growEntryCapacity` the capacity of both buffers
is 65536 if the matrix held no entries before the call, and otherwise exactly
twice the capacity before the call, so that the function's own assertions,
the closing `capacity == newCapacity` among them, hold and the buffers have
room again; the stored entries, the rows, the open row, the row count and
`colCount` are unchanged. -/
theorem growEntryCapacity_policy (m : SparseMatrix) (h : Heap) (hm : Inv m)
    (hfull : m.entryCount = m.capacity) :
    (m.entryCount = 0 → (m.growEntryCapacity h).1.capacity = 65536) ∧
      (m.entryCount ≠ 0 → (m.growEntryCapacity h).1.capacity = 2 * m.capacity) ∧
      (m.growEntryCapacity h).1.mColIndices.capacity =
        (m.growEntryCapacity h).1.mEntries.capacity ∧
      growEntryCapacityChecks m h ∧
      m.capacity < (m.growEntryCapacity h).1.capacity ∧
      (m.growEntryCapacity h).1.stored = m.stored ∧
      (m.growEntryCapacity h).1.rows = m.rows ∧
      (m.growEntryCapacity h).1.pending = m.pending ∧
      (m.growEntryCapacity h).1.rowCount = m.rowCount ∧
      (m.growEntryCapacity h).1.colCount = m.colCount := by
  obtain ⟨h1, h2, h3, h4, h5, h6, h7, h8, h9, h10⟩ :=
    growth_policy_of_bound m h hm (full_empty_bound m hfull)
  exact ⟨h1, h2, h3, h4, h5 hfull, h6, h7, h8, h9, h10⟩

/-- C17, witness: the matrix with one entry in full buffers of capacity 1 gets
the capacity 2 and keeps its row `[(0,1)]`, and the empty matrix of capacity 0
gets the capacity 65536. -/
theorem growEntryCapacity_policy_witness :
    exampleFullMatrix.capacity = 1 ∧
      (exampleFullMatrix.growEntryCapacity (exampleHeap 18)).1.capacity = 2 ∧
      (exampleFullMatrix.growEntryCapacity (exampleHeap 18)).1.rows = [[(0, 1)]] ∧
      (exampleEmpty.growEntryCapacity (exampleHeap 18)).1.capacity = 65536 :=
  have hfullc := growEntryCapacity_policy exampleFullMatrix (exampleHeap 18) (by decide)
    (by decide)
  have hemptyc := growEntryCapacity_policy exampleEmpty (exampleHeap 18) (by decide) (by decide)
  ⟨by decide, (hfullc.2.1 (by decide)).trans (by decide),
    hfullc.2.2.2.2.2.2.1.trans (by decide), hemptyc.1 (by decide)⟩

/-! ## Stability of the pivot sort -/

theorem pivotPair_snd (m : SparseMatrix) (row : Nat) : (m.pivotPair row).2 = row := by
  unfold pivotPair
  split <;> rfl

theorem rows_eq_map_range (m : SparseMatrix) :
    m.rows = (List.range m.rowCount).map m.rowEntries := by
  have h1 := map_getD_range m.rows [] id
  rw [rows_length, List.map_id] at h1
  rw [← h1]
  apply List.map_congr_left
  intro i _
  rw [rowEntries_eq_getD]
  rfl

theorem pivotBefore_unique (m : SparseMatrix) (l1 l2 : List Nat) (hperm : l1.Perm l2)
    (h1 : l1.Pairwise (pivotBefore m)) (h2 : l2.Pairwise (pivotBefore m)) : l1 = l2 := by
  haveI : IsAntisymm Nat (pivotBefore m) :=
    ⟨fun a b hab hba => by unfold pivotBefore at hab hba; omega⟩
  exact List.eq_of_perm_of_sorted hperm h1 h2

/-- C18: for every matrix in a valid state with no pending open-row entries,
after `sortRowsByIncreasingPivots` the matrix has the same `colCount` and row
count and no pending entries, and its row list is exactly the original rows,
each with its entry sequence unchanged, arranged in increasing lexicographic
order of (pivot, original row index): the arrangement `order` of the original
row indices is a permutation of `0 .. rowCount-1`, every such arrangement in
that order gives the same row list, the multiset of rows is preserved, and rows
with equal pivot keep their original relative order. -/
theorem sortRowsByIncreasingPivots_stable (this : SparseMatrix) (h : Heap) (hthis : Inv this)
    (hpend : this.pending = []) :
    (this.sortRowsByIncreasingPivots h).1.colCount = this.colCount ∧
      (this.sortRowsByIncreasingPivots h).1.rowCount = this.rowCount ∧
      (this.sortRowsByIncreasingPivots h).1.pending = [] ∧
      (∃ order : List Nat, order.Perm (List.range this.rowCount) ∧
        order.Pairwise (pivotBefore this) ∧
        (this.sortRowsByIncreasingPivots h).1.rows = order.map this.rowEntries) ∧
      (∀ order : List Nat, order.Perm (List.range this.rowCount) →
        order.Pairwise (pivotBefore this) →
        (this.sortRowsByIncreasingPivots h).1.rows = order.map this.rowEntries) ∧
      (this.sortRowsByIncreasingPivots h).1.rows.Perm this.rows := by
  obtain ⟨hrep, hcol⟩ := sortRowsByIncreasingPivots_rep this h
  have hrows := hrep.rows_eq
  have hsorted : (stdSort ((List.range this.rowCount).map this.pivotPair)).Pairwise pairLE :=
    List.sorted_insertionSort pairLE _
  have hperm : (stdSort ((List.range this.rowCount).map this.pivotPair)).Perm
      ((List.range this.rowCount).map this.pivotPair) := List.perm_insertionSort pairLE _
  generalize stdSort ((List.range this.rowCount).map this.pivotPair) = sorted at *
  have hsnd : ((List.range this.rowCount).map this.pivotPair).map Prod.snd =
      List.range this.rowCount := by
    rw [List.map_map]
    have : (Prod.snd ∘ this.pivotPair) = id := funext (fun row => pivotPair_snd this row)
    rw [this, List.map_id]
  have hoperm : (sorted.map Prod.snd).Perm (List.range this.rowCount) := by
    rw [← hsnd]
    exact hperm.map Prod.snd
  have hmem : ∀ x ∈ sorted, pivot this.colCount (this.rowEntries x.2) = x.1 := by
    intro x hx
    have hx2 := hperm.mem_iff.1 hx
    simp only [List.mem_map, List.mem_range] at hx2
    obtain ⟨row, hrow, rfl⟩ := hx2
    rw [pivotPair_eq hthis row hrow]
  have hne : sorted.Pairwise (fun a b => a.2 ≠ b.2) := by
    have hnodup : (sorted.map Prod.snd).Nodup := hoperm.nodup_iff.2 (List.nodup_range _)
    exact List.pairwise_map.1 hnodup
  have hopw : (sorted.map Prod.snd).Pairwise (pivotBefore this) := by
    rw [List.pairwise_map]
    refine (hsorted.and hne).imp_of_mem ?_
    intro a b ha hb hab
    unfold pivotBefore
    rw [hmem a ha, hmem b hb]
    obtain ⟨hle, hneq⟩ := hab
    unfold pairLE at hle
    omega
  have hrows2 : (this.sortRowsByIncreasingPivots h).1.rows =
      (sorted.map Prod.snd).map this.rowEntries := by
    rw [hrows, List.map_map]
    rfl
  refine ⟨hcol, ?_, hrep.pending_eq, ⟨_, hoperm, hopw, hrows2⟩, ?_, ?_⟩
  · have := congrArg List.length hrows2
    rw [rows_length, List.length_map, hoperm.length_eq, List.length_range] at this
    exact this
  · intro order hperm2 hpw2
    rw [hrows2, pivotBefore_unique this _ _ (hoperm.trans hperm2.symm) hopw hpw2]
  · rw [hrows2, rows_eq_map_range this]
    exact hoperm.map this.rowEntries

/-- C18, witness: the rows `R0 = [(1,3), (3,5)]`, `R1 = [(0,2)]`, `R2 = [(1,4)]`
are arranged in the order `[1, 0, 2]` of their original indices: `R0` and `R2`,
which have the same pivot, keep their relative order. -/
theorem sortRowsByIncreasingPivots_stable_witness :
    (exampleTieMatrix.sortRowsByIncreasingPivots (exampleHeap 18)).1.rows =
      [[(0, 2)], [(1, 3), (3, 5)], [(1, 4)]] :=
  ((sortRowsByIncreasingPivots_stable exampleTieMatrix (exampleHeap 18) (by decide)
    (by decide)).2.2.2.2.1 [1, 0, 2] (by decide) (by decide)).trans (by decide)

/-! ## Agreement and exactness of the normalizations -/

/-- C19: for every receiver in a valid state, every modulus `0 < p < 2^16` (in
particular every odd prime) and every dense row `v` of length `colCount`, the
row appended by `appendRowWithModulusNormalized(v, p)` is identical to the row
appended by `appendRowAndNormalize(scratch, 0, p)`, where `scratch` is a matrix
with the same `colCount` that received `appendRowWithModulus(v, p)`: the two
receivers end with the same rows and the same stored entries. -/
theorem normalizations_agree (this : SparseMatrix) (h1 h2 h3 : Heap) (v : List Nat) (p : Nat)
    (hthis : Inv this) (hv : v.length = this.colCount) (hp : 0 < p) (hp16 : p < scalarSize) :
    ((SparseMatrix.new.clear this.colCount).appendRowWithModulus h2 v p).1.rowEntries 0 =
        ((List.range this.colCount).map (fun c => (c, v.getD c 0 % p))).filter
          (fun e => e.2 != 0) ∧
      (this.appendRowWithModulusNormalized h1 v p).1.rows =
        (this.appendRowAndNormalize h3
          ((SparseMatrix.new.clear this.colCount).appendRowWithModulus h2 v p).1 0 p).1.rows ∧
      (this.appendRowWithModulusNormalized h1 v p).1.stored =
        (this.appendRowAndNormalize h3
          ((SparseMatrix.new.clear this.colCount).appendRowWithModulus h2 v p).1 0 p).1.stored := by
  have hle : p ≤ scalarSize := le_of_lt hp16
  have hscratch := (rep_new_clear this.colCount).appendRowWithModulus h2 v p hp hle
  have hrow0 : ((SparseMatrix.new.clear this.colCount).appendRowWithModulus h2 v p).1.rowEntries 0
      = sparsified v p this.colCount := by
    rw [rowEntries_eq_getD, hscratch.rows_eq]
    rfl
  have hone := hthis.rep.appendRowWithModulusNormalized h1 v p hp hle
  have htwo := hthis.rep.appendRowAndNormalize h3
    ((SparseMatrix.new.clear this.colCount).appendRowWithModulus h2 v p).1 0 p hp hle
    (by
      rw [hrow0]
      intro e he
      exact lt_trans (sparsified_range v p this.colCount hp e he).2 hp16)
  rw [hrow0] at htwo
  refine ⟨hrow0, ?_, ?_⟩
  · rw [hone.rows_eq, htwo.rows_eq]
  · rw [hone.2.2.2.1, htwo.2.2.2.1]

/-- C19, witness: `p = 7`, `colCount = 4` and the dense row `[0, 3, 0, 5]`: both
ways append the row `[(1,1), (3,4)]`. -/
theorem normalizations_agree_witness :
    (exampleEmpty.appendRowAndNormalize (exampleHeap 8)
        ((SparseMatrix.new.clear exampleEmpty.colCount).appendRowWithModulus (exampleHeap 6)
          [0, 3, 0, 5] 7).1 0 7).1.rows = [[(1, 1), (3, 4)]] :=
  ((normalizations_agree exampleEmpty (exampleHeap 8) (exampleHeap 6) (exampleHeap 8)
    [0, 3, 0, 5] 7 (by decide) (by decide) (by decide) (by decide)).2.1).symm.trans (by decide)

theorem scaled_ne_zero (t s p : Nat) (hp : Nat.Prime p) (ht1 : 1 ≤ t) (htp : t < p)
    (hs1 : 1 ≤ s) (hsp : s < p) : t * s % p ≠ 0 := by
  intro h0
  rcases (Nat.Prime.dvd_mul hp).1 (Nat.dvd_of_mod_eq_zero h0) with hd | hd
  · have := Nat.le_of_dvd (by omega) hd
    omega
  · have := Nat.le_of_dvd (by omega) hd
    omega

theorem scaled_back (lead t s p : Nat) (hinv : lead * t % p = 1) (hsp : s < p) :
    lead * (t * s % p) % p = s := by
  rw [Nat.mul_mod, Nat.mod_mod, ← Nat.mul_mod, ← Nat.mul_assoc, Nat.mul_mod, hinv, Nat.one_mul,
    Nat.mod_mod, Nat.mod_eq_of_lt hsp]

/-- C20: for every odd prime `p < 2^16`, every receiver in a valid state and
every non-empty source row with scalars in `[1, p)` and first scalar `lead`,
assuming `modularInverse(lead, p)` returns `t` in `[1, p)` with
`lead * t = 1 (mod p)`: the row appended by `appendRowAndNormalize` matches the
source row position by position, each appended entry `(c, s)` and the source
entry `(c, s0)` at the same position having the same column and
`(lead * s) mod p = s0`, with `s` in `[1, p)`; and for every later source
scalar `s0` the 32-bit product `inverse * s0` equals the mathematical product,
which is below `2^32`. -/
theorem normalization_exact (this src : SparseMatrix) (h : Heap) (row p c lead : Nat)
    (rest : List Entry) (hthis : Inv this) (hp : Nat.Prime p) (hodd : p ≠ 2)
    (hp16 : p < scalarSize) (hrow : src.rowEntries row = (c, lead) :: rest)
    (hred : ∀ e ∈ src.rowEntries row, 1 ≤ e.2 ∧ e.2 < p)
    (hinv : 1 ≤ modularInverse lead p ∧ modularInverse lead p < p ∧
      lead * modularInverse lead p % p = 1) :
    (∃ appended, AppendedRow this (this.appendRowAndNormalize h src row p).1 appended ∧
        List.Forall₂ (fun a s => a.1 = s.1 ∧ lead * a.2 % p = s.2 ∧ 1 ≤ a.2 ∧ a.2 < p)
          appended (src.rowEntries row)) ∧
      ∀ e ∈ rest,
        (modularInverse lead p % scalarSize % uint32Size) * e.2 % uint32Size =
          modularInverse lead p * e.2 ∧
        modularInverse lead p * e.2 < uint32Size := by
  have hpos : 0 < p := hp.pos
  have hlead := hred (c, lead) (by rw [hrow]; simp)
  have hrest : ∀ e ∈ rest, 1 ≤ e.2 ∧ e.2 < p := fun e he => hred e (by rw [hrow]; simp [he])
  constructor
  · refine ⟨normalizedRow p (src.rowEntries row), ?_, ?_⟩
    · exact (hthis.rep.appendRowAndNormalize h src row p hpos (le_of_lt hp16)
        (fun e he => lt_trans (hred e he).2 hp16)).rows_eq
    · rw [hrow]
      simp only [normalizedRow]
      refine List.Forall₂.cons ⟨rfl, ?_, le_refl 1, hp.one_lt⟩ ?_
      · show lead * 1 % p = lead
        rw [Nat.mul_one, Nat.mod_eq_of_lt hlead.2]
      · rw [List.forall₂_map_left_iff, List.forall₂_same]
        intro e he
        obtain ⟨he1, he2⟩ := hrest e he
        refine ⟨rfl, scaled_back lead _ e.2 p hinv.2.2 he2, ?_, Nat.mod_lt _ hpos⟩
        exact Nat.pos_of_ne_zero (scaled_ne_zero _ e.2 p hp hinv.1 hinv.2.1 he1 he2)
  · intro e he
    obtain ⟨_, he2⟩ := hrest e he
    have ht := hinv.2.1
    simp only [scalarSize, uint32Size] at *
    have hprod : modularInverse lead p * e.2 < 4294967296 := by
      have : modularInverse lead p * e.2 ≤ 65535 * 65535 :=
        Nat.mul_le_mul (by omega) (by omega)
      omega
    rw [Nat.mod_eq_of_lt (show modularInverse lead p < 65536 by omega),
      Nat.mod_eq_of_lt (show modularInverse lead p < 4294967296 by omega),
      Nat.mod_eq_of_lt hprod]
    exact ⟨rfl, hprod⟩

/-- C20, witness: `p = 7` and the source row `[(1,3), (3,5)]`, whose first
scalar 3 has the inverse 5: the appended row is `[(1,1), (3,4)]`, and
`3 * 1 = 3`, `3 * 4 = 12 = 5 (mod 7)`. -/
theorem normalization_exact_witness :
    ∃ appended, AppendedRow exampleEmpty
        (exampleEmpty.appendRowAndNormalize (exampleHeap 6) exampleDenseMatrix 0 7).1 appended ∧
      List.Forall₂ (fun a s => a.1 = s.1 ∧ 3 * a.2 % 7 = s.2 ∧ 1 ≤ a.2 ∧ a.2 < 7)
        appended (exampleDenseMatrix.rowEntries 0) :=
  (normalization_exact exampleEmpty exampleDenseMatrix (exampleHeap 6) 0 7 1 3 [(3, 5)]
    (by decide) (by norm_num) (by decide) (by decide) (by decide) (by decide) (by decide)).1

end SparseMatrix
